import Mathlib

/-
Shallow embedding of the Minesweeper board engine (src/game_state.rs).
Positions are integer (row, column) pairs (the i32 coordinates are modelled
as unbounded Int; no reachable board state comes near the i32 bounds); the
board is an association list from positions to cells, mirroring the
HashMap<Position, Cell> (unique keys, first-match get/get_mut).
The random draw of mine positions in initialize_state is modelled by an
explicit list parameter constrained by ValidMineChoice, which states exactly
what rand's choose_multiple over the eligible keys can return.
-/

structure Position where
  row : Int
  column : Int
deriving DecidableEq

inductive CellType where
  | Mine : CellType
  | NonMine : Nat → CellType
deriving DecidableEq

inductive Marking where
  | None : Marking
  | Flag : Marking
  | QuestionMark : Marking
deriving DecidableEq

structure Cell where
  is_revealed : Bool
  marking : Marking
  cell_type : CellType
deriving DecidableEq

def Cell.default : Cell :=
  { is_revealed := false, marking := Marking.None, cell_type := CellType.NonMine 0 }

def Cell.mine : Cell :=
  { is_revealed := false, marking := Marking.None, cell_type := CellType.Mine }

def Marking.next : Marking → Marking
  | Marking.None => Marking.Flag
  | Marking.Flag => Marking.QuestionMark
  | Marking.QuestionMark => Marking.None

/-- Position::new(row: usize, column: usize): casts the unsigned grid
coordinates to the signed position. -/
def Position.new (row column : Nat) : Position := ⟨(row : Int), (column : Int)⟩

/-- iproduct!(-1..=1, -1..=1) without (0, 0): the (x, y) offsets, x outer. -/
def neighbourOffsets : List (Int × Int) :=
  [(-1, -1), (-1, 0), (-1, 1), (0, -1), (0, 1), (1, -1), (1, 0), (1, 1)]

/-- The 8 Moore neighbours: position = (row + y, column + x) per offset. -/
def Position.neighbours (p : Position) : List Position :=
  neighbourOffsets.map (fun xy => ⟨p.row + xy.2, p.column + xy.1⟩)

structure GameState where
  cells : List (Position × Cell)
  width : Nat
  height : Nat
  mines : Nat
  has_revealed_any : Bool
deriving DecidableEq

inductive Message where
  | Reveal : Position → Message
  | ToggleMark : Position → Message
  | RevealSurrounding : Position → Message

/-- HashMap::get on the association list: first entry with the key. -/
def getCell : List (Position × Cell) → Position → Option Cell
  | [], _ => none
  | pc :: rest, p => if pc.1 = p then some pc.2 else getCell rest p

/-- HashMap::get_mut followed by a field update: rewrite the (unique) entry
with the key, leaving the rest of the list alone. -/
def setCell : List (Position × Cell) → Position → (Cell → Cell) → List (Position × Cell)
  | [], _, _ => []
  | pc :: rest, p, f => if pc.1 = p then (pc.1, f pc.2) :: rest else pc :: setCell rest p f

/-- HashMap::insert: overwrite the entry when the key is present, add it
otherwise. -/
def insertCell (cells : List (Position × Cell)) (p : Position) (v : Cell) :
    List (Position × Cell) :=
  if (getCell cells p).isSome then setCell cells p (fun _ => v) else cells ++ [(p, v)]

def GameState.new (width height mines : Nat) : GameState :=
  { cells := (List.range (width + 1)).flatMap
      (fun c => (List.range (height + 1)).map
        (fun r => (Position.new r c, Cell.default))),
    width := width, height := height, mines := mines, has_revealed_any := false }

/-- Increment the adjacent-mine count of a non-mine cell; leave a mine alone
(the `if let CellType::NonMine` guard of the placement loop). -/
def incCell (c : Cell) : Cell :=
  match c.cell_type with
  | CellType.NonMine k => { c with cell_type := CellType.NonMine (k + 1) }
  | CellType.Mine => c

/-- One iteration of the placement loop: overwrite the chosen position with a
fresh mine cell, then bump the count of every in-grid non-mine neighbour. -/
def placeOneCells (cells : List (Position × Cell)) (p : Position) :
    List (Position × Cell) :=
  p.neighbours.foldl (fun cs r => setCell cs r incCell) (insertCell cells p Cell.mine)

def placeMines : List (Position × Cell) → List Position → List (Position × Cell)
  | cells, [] => cells
  | cells, p :: rest => placeMines (placeOneCells cells p) rest

/-- GameState::initialize_state with the random draw made explicit: the list
of chosen mine positions is the parameter. -/
def GameState.initialize_state (s : GameState) (mine_positions : List Position) :
    GameState :=
  { s with cells := placeMines s.cells mine_positions }

def keysOf (cells : List (Position × Cell)) : List Position := cells.map Prod.fst

/-- The positions the placement draw samples from: the grid keys minus the
safe zone around the starting position. -/
def eligible (s : GameState) (start : Position) : List Position :=
  (keysOf s.cells).filter (fun p => decide (p ≠ start ∧ p ∉ start.neighbours))

/-- What rand's choose_multiple can return: min(mines, #eligible) distinct
eligible positions. -/
def ValidMineChoice (s : GameState) (start : Position) (l : List Position) : Prop :=
  l.Nodup ∧ (∀ x ∈ l, x ∈ eligible s start) ∧
    l.length = min s.mines (eligible s start).length

def countUnrevealed (cells : List (Position × Cell)) : Nat :=
  (cells.filter (fun pc => !pc.2.is_revealed)).length

def GameState.setRevealed (s : GameState) (p : Position) : GameState :=
  { s with cells := setCell s.cells p (fun c => { c with is_revealed := true }) }

/-- Run a reveal step over each position of a list in order, in the Option
monad (none = ran out of fuel). -/
def revealSeq (f : GameState → Position → Option GameState) :
    GameState → List Position → Option GameState
  | s, [] => some s
  | s, p :: ps =>
    match f s p with
    | none => none
    | some s1 => revealSeq f s1 ps

/-- GameState::reveal with explicit fuel for the recursion; the recursion of
the source is recovered as revealFuel with any sufficient fuel. -/
def revealFuel : Nat → GameState → Position → Option GameState
  | 0, _, _ => none
  | fuel + 1, s, p =>
    match getCell s.cells p with
    | none => some s
    | some c =>
      if c.is_revealed = false ∧ c.marking = Marking.None then
        let s1 := GameState.setRevealed s p
        if c.cell_type = CellType.NonMine 0 then
          revealSeq (revealFuel fuel) s1 p.neighbours
        else some s1
      else some s

def GameState.reveal (s : GameState) (p : Position) : GameState :=
  (revealFuel (countUnrevealed s.cells + 1) s p).getD s

def GameState.toggle_mark (s : GameState) (p : Position) : GameState :=
  { s with cells := setCell s.cells p (fun c => { c with marking := c.marking.next }) }

/-- The partition predicate of reveal_surrounding: flagged and unrevealed. -/
def isFlaggedUnrevealed (s : GameState) (q : Position) : Bool :=
  match getCell s.cells q with
  | some c => !c.is_revealed && decide (c.marking = Marking.Flag)
  | none => false

def GameState.reveal_surrounding (s : GameState) (p : Position) : GameState :=
  match getCell s.cells p with
  | some c =>
    if c.is_revealed then
      match c.cell_type with
      | CellType.NonMine n =>
        if ((p.neighbours.filter (fun q => isFlaggedUnrevealed s q)).length = n) then
          (p.neighbours.filter (fun q => !isFlaggedUnrevealed s q)).foldl
            GameState.reveal s
        else s
      | CellType.Mine => s
    else s
  | none => s

/-- GameState::update, with the random draw of the lazy first-reveal
initialization passed in as the choice list. -/
def GameState.update (s : GameState) (msg : Message) (choice : List Position) :
    GameState :=
  match msg with
  | Message.Reveal p =>
    if s.has_revealed_any then GameState.reveal s p
    else GameState.reveal
      { GameState.initialize_state s choice with has_revealed_any := true } p
  | Message.ToggleMark p => GameState.toggle_mark s p
  | Message.RevealSurrounding p => GameState.reveal_surrounding s p

def isRevealedAt (s : GameState) (p : Position) : Bool :=
  match getCell s.cells p with
  | some c => c.is_revealed
  | none => false

def isMineAt (s : GameState) (p : Position) : Bool :=
  match getCell s.cells p with
  | some c => decide (c.cell_type = CellType.Mine)
  | none => false

def mineCount (s : GameState) : Nat :=
  (s.cells.filter (fun pc => decide (pc.2.cell_type = CellType.Mine))).length

/-! ### Association-list lemmas -/

theorem getCell_setCell (l : List (Position × Cell)) (p q : Position) (f : Cell → Cell) :
    getCell (setCell l p f) q = if q = p then (getCell l p).map f else getCell l q := by
  induction l with
  | nil => simp [getCell, setCell]
  | cons pc rest ih =>
    by_cases hp : pc.1 = p
    · by_cases hq : q = p
      · subst hq; simp [getCell, setCell, hp]
      · have h1 : ¬ pc.1 = q := by rw [hp]; intro h; exact hq h.symm
        have h2 : ¬ p = q := fun h => hq h.symm
        simp [getCell, setCell, hp, hq, h1, h2]
    · by_cases hq : q = p
      · subst hq
        have h1 : ¬ pc.1 = q := hp
        simp [getCell, setCell, hp, h1, ih]
      · by_cases h1 : pc.1 = q
        · simp [getCell, setCell, hp, hq, h1]
        · simp [getCell, setCell, hp, hq, h1, ih]

theorem getCell_append (l₁ l₂ : List (Position × Cell)) (q : Position) :
    getCell (l₁ ++ l₂) q =
      match getCell l₁ q with
      | some c => some c
      | none => getCell l₂ q := by
  induction l₁ with
  | nil => simp [getCell]
  | cons pc rest ih =>
    by_cases h : pc.1 = q <;> simp [getCell, h, ih]

theorem getCell_insertCell (l : List (Position × Cell)) (p q : Position) (v : Cell) :
    getCell (insertCell l p v) q = if q = p then some v else getCell l q := by
  unfold insertCell
  by_cases hs : (getCell l p).isSome
  · rcases Option.isSome_iff_exists.mp hs with ⟨c, hc⟩
    simp [hs, getCell_setCell, hc]
  · rw [if_neg hs, getCell_append]
    by_cases hq : q = p
    · subst hq
      have h0 : getCell l q = none := Option.not_isSome_iff_eq_none.mp hs
      simp [h0, getCell]
    · have h1 : ¬ p = q := fun h => hq h.symm
      cases h : getCell l q <;> simp [getCell, h, h1, hq]

/-! ### The cell-evolution relation: how reveal may change a single cell -/

/-- Either the cell is untouched, or an unrevealed unmarked cell became
revealed. This is all GameState::reveal ever does to a cell. -/
def CellStep (c c' : Cell) : Prop :=
  c' = c ∨ (c.is_revealed = false ∧ c.marking = Marking.None ∧
    c' = { c with is_revealed := true })

theorem cellStep_refl (c : Cell) : CellStep c c := Or.inl rfl

theorem cellStep_trans {a b c : Cell} (h1 : CellStep a b) (h2 : CellStep b c) :
    CellStep a c := by
  rcases h1 with h1 | ⟨hr, hm, h1⟩
  · subst h1; exact h2
  · rcases h2 with h2 | ⟨hr2, _, _⟩
    · subst h2; exact Or.inr ⟨hr, hm, h1⟩
    · rw [h1] at hr2; simp at hr2

theorem CellStep.marking_eq {a b : Cell} (h : CellStep a b) : b.marking = a.marking := by
  rcases h with h | ⟨_, _, h⟩ <;> subst h <;> rfl

theorem CellStep.cell_type_eq {a b : Cell} (h : CellStep a b) :
    b.cell_type = a.cell_type := by
  rcases h with h | ⟨_, _, h⟩ <;> subst h <;> rfl

theorem cellStep_mono_revealed {a b : Cell} (h : CellStep a b)
    (ha : a.is_revealed = true) : b.is_revealed = true := by
  rcases h with h | ⟨hr, _, _⟩
  · subst h; exact ha
  · rw [ha] at hr; exact absurd hr (by simp)

theorem cellStep_marked_frozen {a b : Cell} (h : CellStep a b)
    (hm : a.marking ≠ Marking.None) : b = a := by
  rcases h with h | ⟨_, hm2, _⟩
  · exact h
  · exact absurd hm2 hm

theorem CellStep.unrevealed_back {a b : Cell} (h : CellStep a b)
    (hb : b.is_revealed = false) : a.is_revealed = false := by
  rcases h with h | ⟨hr, _, _⟩
  · subst h; exact hb
  · exact hr

def CellsEvolve : List (Position × Cell) → List (Position × Cell) → Prop :=
  List.Forall₂ (fun a b => a.1 = b.1 ∧ CellStep a.2 b.2)

theorem cellsEvolve_refl (l : List (Position × Cell)) : CellsEvolve l l := by
  induction l with
  | nil => exact List.Forall₂.nil
  | cons pc rest ih => exact List.Forall₂.cons ⟨rfl, cellStep_refl pc.2⟩ ih

theorem cellsEvolve_trans {l₁ l₂ l₃ : List (Position × Cell)}
    (h1 : CellsEvolve l₁ l₂) (h2 : CellsEvolve l₂ l₃) : CellsEvolve l₁ l₃ := by
  induction h1 generalizing l₃ with
  | nil => cases h2; exact List.Forall₂.nil
  | cons hab h1' ih =>
    cases h2 with
    | cons hbc h2' =>
      exact List.Forall₂.cons ⟨hab.1.trans hbc.1, cellStep_trans hab.2 hbc.2⟩ (ih h2')

theorem cellsEvolve_getCell_none {l l' : List (Position × Cell)}
    (h : CellsEvolve l l') (q : Position) (hq : getCell l q = none) :
    getCell l' q = none := by
  induction h with
  | nil => rfl
  | cons hab h' ih =>
    rename_i a b l₁ l₂
    by_cases hk : a.1 = q
    · simp [getCell, hk] at hq
    · have hk' : ¬ b.1 = q := by rw [← hab.1]; exact hk
      simp [getCell, hk] at hq
      simp [getCell, hk', ih hq]

theorem cellsEvolve_getCell_some {l l' : List (Position × Cell)}
    (h : CellsEvolve l l') (q : Position) {c : Cell} (hq : getCell l q = some c) :
    ∃ c', getCell l' q = some c' ∧ CellStep c c' := by
  induction h with
  | nil => simp [getCell] at hq
  | cons hab h' ih =>
    rename_i a b l₁ l₂
    by_cases hk : a.1 = q
    · have hk' : b.1 = q := hab.1 ▸ hk
      simp [getCell, hk] at hq
      exact ⟨b.2, by simp [getCell, hk'], hq ▸ hab.2⟩
    · have hk' : ¬ b.1 = q := by rw [← hab.1]; exact hk
      simp [getCell, hk] at hq
      rcases ih hq with ⟨c', hc', hs⟩
      exact ⟨c', by simp [getCell, hk', hc'], hs⟩

theorem cellsEvolve_cons {a b : Position × Cell} {l l' : List (Position × Cell)}
    (h1 : a.1 = b.1) (h2 : CellStep a.2 b.2) (h : CellsEvolve l l') :
    CellsEvolve (a :: l) (b :: l') :=
  List.Forall₂.cons ⟨h1, h2⟩ h

theorem cellsEvolve_setRevealed {l : List (Position × Cell)} {p : Position} {c : Cell}
    (hc : getCell l p = some c) (hr : c.is_revealed = false)
    (hm : c.marking = Marking.None) :
    CellsEvolve l (setCell l p (fun c => { c with is_revealed := true })) := by
  induction l with
  | nil => exact List.Forall₂.nil
  | cons pc rest ih =>
    by_cases hk : pc.1 = p
    · simp only [getCell, if_pos hk, Option.some.injEq] at hc
      rw [setCell, if_pos hk]
      exact cellsEvolve_cons rfl (Or.inr ⟨hc ▸ hr, hc ▸ hm, by rw [hc]⟩)
        (cellsEvolve_refl rest)
    · simp only [getCell, if_neg hk] at hc
      rw [setCell, if_neg hk]
      exact cellsEvolve_cons rfl (cellStep_refl pc.2) (ih hc)

theorem countUnrevealed_cons (pc : Position × Cell) (l : List (Position × Cell)) :
    countUnrevealed (pc :: l) =
      (if pc.2.is_revealed = false then 1 else 0) + countUnrevealed l := by
  by_cases h : pc.2.is_revealed
  · simp [countUnrevealed, List.filter, h]
  · simp [countUnrevealed, List.filter, h]
    omega

theorem countUnrevealed_le_of_evolve {l l' : List (Position × Cell)}
    (h : CellsEvolve l l') : countUnrevealed l' ≤ countUnrevealed l := by
  induction h with
  | nil => exact Nat.le.refl
  | cons hab h' ih =>
    rename_i a b l₁ l₂
    rw [countUnrevealed_cons, countUnrevealed_cons]
    by_cases hb : b.2.is_revealed = false
    · have ha : a.2.is_revealed = false := hab.2.unrevealed_back hb
      simp only [ha, hb, if_pos rfl]
      omega
    · simp only [hb, if_neg, if_false]
      by_cases ha : a.2.is_revealed = false <;> simp [ha] <;> omega

theorem countUnrevealed_setRevealed_lt {l : List (Position × Cell)} {p : Position}
    {c : Cell} (hc : getCell l p = some c) (hr : c.is_revealed = false) :
    countUnrevealed (setCell l p (fun c => { c with is_revealed := true })) <
      countUnrevealed l := by
  induction l with
  | nil => simp [getCell] at hc
  | cons pc rest ih =>
    by_cases hk : pc.1 = p
    · simp only [getCell, if_pos hk, Option.some.injEq] at hc
      rw [setCell, if_pos hk, countUnrevealed_cons, countUnrevealed_cons]
      simp only [hc, hr]
      simp
    · simp only [getCell, if_neg hk] at hc
      rw [setCell, if_neg hk, countUnrevealed_cons, countUnrevealed_cons]
      have := ih hc
      omega

/-! ### State preservation by reveal -/

/-- What a (possibly cascading) reveal may do to the whole state: scalar
fields untouched, every cell untouched or flipped to revealed. -/
def Pres (s s' : GameState) : Prop :=
  s'.width = s.width ∧ s'.height = s.height ∧ s'.mines = s.mines ∧
    s'.has_revealed_any = s.has_revealed_any ∧ CellsEvolve s.cells s'.cells

theorem Pres.refl (s : GameState) : Pres s s :=
  ⟨rfl, rfl, rfl, rfl, cellsEvolve_refl _⟩

theorem Pres.trans {s1 s2 s3 : GameState} (h1 : Pres s1 s2) (h2 : Pres s2 s3) :
    Pres s1 s3 :=
  ⟨h2.1.trans h1.1, h2.2.1.trans h1.2.1, h2.2.2.1.trans h1.2.2.1,
    h2.2.2.2.1.trans h1.2.2.2.1, cellsEvolve_trans h1.2.2.2.2 h2.2.2.2.2⟩

theorem Pres.getCell_none {s s' : GameState} (h : Pres s s') {q : Position}
    (hq : getCell s.cells q = none) : getCell s'.cells q = none :=
  cellsEvolve_getCell_none h.2.2.2.2 q hq

theorem Pres.getCell_some {s s' : GameState} (h : Pres s s') {q : Position} {c : Cell}
    (hq : getCell s.cells q = some c) :
    ∃ c', getCell s'.cells q = some c' ∧ CellStep c c' :=
  cellsEvolve_getCell_some h.2.2.2.2 q hq

theorem Pres.mono_revealed {s s' : GameState} (h : Pres s s') {q : Position}
    (hq : isRevealedAt s q = true) : isRevealedAt s' q = true := by
  unfold isRevealedAt at *
  cases hc : getCell s.cells q with
  | none => rw [hc] at hq; simp at hq
  | some c =>
    rw [hc] at hq
    rcases h.getCell_some hc with ⟨c', hc', hs⟩
    rw [hc']
    exact cellStep_mono_revealed hs hq

theorem Pres.marked_frozen {s s' : GameState} (h : Pres s s') {q : Position} {c : Cell}
    (hq : getCell s.cells q = some c) (hm : c.marking ≠ Marking.None) :
    getCell s'.cells q = some c := by
  rcases h.getCell_some hq with ⟨c', hc', hs⟩
  rw [hc', cellStep_marked_frozen hs hm]

theorem Pres.countUnrevealed_le {s s' : GameState} (h : Pres s s') :
    countUnrevealed s'.cells ≤ countUnrevealed s.cells :=
  countUnrevealed_le_of_evolve h.2.2.2.2

/-! ### Unfolding lemmas for revealFuel -/

theorem revealFuel_succ_missing {s : GameState} {p : Position} (fuel : Nat)
    (h : getCell s.cells p = none) : revealFuel (fuel + 1) s p = some s := by
  simp [revealFuel, h]

theorem revealFuel_succ_skip {s : GameState} {p : Position} {c : Cell} (fuel : Nat)
    (h : getCell s.cells p = some c)
    (hcond : ¬(c.is_revealed = false ∧ c.marking = Marking.None)) :
    revealFuel (fuel + 1) s p = some s := by
  simp [revealFuel, h, hcond]

theorem revealFuel_succ_stop {s : GameState} {p : Position} {c : Cell} (fuel : Nat)
    (h : getCell s.cells p = some c) (hr : c.is_revealed = false)
    (hm : c.marking = Marking.None) (hz : ¬ c.cell_type = CellType.NonMine 0) :
    revealFuel (fuel + 1) s p = some (GameState.setRevealed s p) := by
  simp [revealFuel, h, hr, hm, hz]

theorem revealFuel_succ_flood {s : GameState} {p : Position} {c : Cell} (fuel : Nat)
    (h : getCell s.cells p = some c) (hr : c.is_revealed = false)
    (hm : c.marking = Marking.None) (hz : c.cell_type = CellType.NonMine 0) :
    revealFuel (fuel + 1) s p =
      revealSeq (revealFuel fuel) (GameState.setRevealed s p) p.neighbours := by
  simp [revealFuel, h, hr, hm, hz]

theorem pres_setRevealed {s : GameState} {p : Position} {c : Cell}
    (hc : getCell s.cells p = some c) (hr : c.is_revealed = false)
    (hm : c.marking = Marking.None) : Pres s (GameState.setRevealed s p) :=
  ⟨rfl, rfl, rfl, rfl, cellsEvolve_setRevealed hc hr hm⟩

theorem revealSeq_pres {f : GameState → Position → Option GameState}
    (hf : ∀ t q t', f t q = some t' → Pres t t') :
    ∀ (l : List Position) (s s' : GameState), revealSeq f s l = some s' → Pres s s' := by
  intro l
  induction l with
  | nil =>
    intro s s' h
    simp [revealSeq] at h
    subst h; exact Pres.refl s
  | cons p ps ih =>
    intro s s' h
    cases h1 : f s p with
    | none => simp [revealSeq, h1] at h
    | some s1 =>
      simp only [revealSeq, h1] at h
      exact (hf s p s1 h1).trans (ih s1 s' h)

theorem revealFuel_pres :
    ∀ (fuel : Nat) (s : GameState) (p : Position) (s' : GameState),
      revealFuel fuel s p = some s' → Pres s s' := by
  intro fuel
  induction fuel with
  | zero => intro s p s' h; simp [revealFuel] at h
  | succ fuel ih =>
    intro s p s' h
    cases hc : getCell s.cells p with
    | none =>
      rw [revealFuel_succ_missing fuel hc] at h
      injection h with h; rw [← h]; exact Pres.refl s
    | some c =>
      by_cases hcond : c.is_revealed = false ∧ c.marking = Marking.None
      · by_cases hz : c.cell_type = CellType.NonMine 0
        · rw [revealFuel_succ_flood fuel hc hcond.1 hcond.2 hz] at h
          exact (pres_setRevealed hc hcond.1 hcond.2).trans
            (revealSeq_pres (fun t q t' => ih t q t') _ _ _ h)
        · rw [revealFuel_succ_stop fuel hc hcond.1 hcond.2 hz] at h
          injection h with h; rw [← h]
          exact pres_setRevealed hc hcond.1 hcond.2
      · rw [revealFuel_succ_skip fuel hc hcond] at h
        injection h with h; rw [← h]; exact Pres.refl s

/-! ### Fuel adequacy: the recursion terminates with fuel one more than the
number of unrevealed cells -/

theorem revealSeq_isSome {f : GameState → Position → Option GameState} {n : Nat}
    (hf1 : ∀ t q, countUnrevealed t.cells < n → (f t q).isSome = true)
    (hf2 : ∀ t q t', f t q = some t' →
      countUnrevealed t'.cells ≤ countUnrevealed t.cells) :
    ∀ (l : List Position) (s : GameState), countUnrevealed s.cells < n →
      (revealSeq f s l).isSome = true := by
  intro l
  induction l with
  | nil => intro s _; simp [revealSeq]
  | cons p ps ih =>
    intro s hs
    cases h1 : f s p with
    | none =>
      have := hf1 s p hs
      rw [h1] at this; simp at this
    | some s1 =>
      simp only [revealSeq, h1]
      exact ih s1 (Nat.lt_of_le_of_lt (hf2 s p s1 h1) hs)

theorem revealFuel_isSome :
    ∀ (fuel : Nat) (s : GameState) (p : Position),
      countUnrevealed s.cells < fuel → (revealFuel fuel s p).isSome = true := by
  intro fuel
  induction fuel with
  | zero => intro s p h; exact absurd h (Nat.not_lt_zero _)
  | succ fuel ih =>
    intro s p h
    cases hc : getCell s.cells p with
    | none => rw [revealFuel_succ_missing fuel hc]; rfl
    | some c =>
      by_cases hcond : c.is_revealed = false ∧ c.marking = Marking.None
      · by_cases hz : c.cell_type = CellType.NonMine 0
        · rw [revealFuel_succ_flood fuel hc hcond.1 hcond.2 hz]
          have hlt : countUnrevealed (GameState.setRevealed s p).cells <
              countUnrevealed s.cells :=
            countUnrevealed_setRevealed_lt hc hcond.1
          exact revealSeq_isSome (fun t q ht => ih t q ht)
            (fun t q t' h' => (revealFuel_pres fuel t q t' h').countUnrevealed_le)
            p.neighbours (GameState.setRevealed s p) (by omega)
        · rw [revealFuel_succ_stop fuel hc hcond.1 hcond.2 hz]; rfl
      · rw [revealFuel_succ_skip fuel hc hcond]; rfl

/-- The fuel given to revealFuel by GameState.reveal suffices: the recursion
of the source always bottoms out. -/
theorem reveal_spec (s : GameState) (p : Position) :
    revealFuel (countUnrevealed s.cells + 1) s p = some (GameState.reveal s p) := by
  have h := revealFuel_isSome (countUnrevealed s.cells + 1) s p (Nat.lt_succ_self _)
  rcases Option.isSome_iff_exists.mp h with ⟨s', hs⟩
  rw [GameState.reveal, hs]
  rfl

theorem reveal_pres (s : GameState) (p : Position) : Pres s (GameState.reveal s p) :=
  revealFuel_pres _ _ _ _ (reveal_spec s p)

/-! ### Position facts -/

theorem not_mem_neighbours_self (p : Position) : p ∉ p.neighbours := by
  obtain ⟨r, c⟩ := p
  intro h
  simp only [Position.neighbours, neighbourOffsets, List.map_cons, List.map_nil,
    List.mem_cons, List.not_mem_nil, or_false, Position.mk.injEq] at h
  omega

theorem mem_neighbours_symm {p q : Position} :
    p ∈ q.neighbours ↔ q ∈ p.neighbours := by
  obtain ⟨pr, pc⟩ := p
  obtain ⟨qr, qc⟩ := q
  simp only [Position.neighbours, neighbourOffsets, List.map_cons, List.map_nil,
    List.mem_cons, List.not_mem_nil, or_false, Position.mk.injEq]
  constructor
  · intro h
    rcases h with h | h | h | h | h | h | h | h
    all_goals omega
  · intro h
    rcases h with h | h | h | h | h | h | h | h
    all_goals omega

theorem neighbours_nodup (p : Position) : p.neighbours.Nodup := by
  refine List.Nodup.map ?_ (by decide)
  intro a b h
  simp only [Position.mk.injEq] at h
  obtain ⟨a1, a2⟩ := a
  obtain ⟨b1, b2⟩ := b
  simp only [Prod.mk.injEq]
  simp only at h
  omega

/-! ### Reveal reaches its targets -/

def isZeroCell (s : GameState) (r : Position) : Bool :=
  match getCell s.cells r with
  | some c => decide (c.cell_type = CellType.NonMine 0)
  | none => false

theorem Pres.isZeroCell_eq {s s' : GameState} (h : Pres s s') (r : Position) :
    isZeroCell s' r = isZeroCell s r := by
  unfold isZeroCell
  cases hc : getCell s.cells r with
  | none => simp only [h.getCell_none hc, hc]
  | some c =>
    rcases h.getCell_some hc with ⟨c', hc', hstep⟩
    rw [hc']
    simp only [hstep.cell_type_eq]

theorem isRevealedAt_setRevealed_self {s : GameState} {p : Position} {c : Cell}
    (hc : getCell s.cells p = some c) :
    isRevealedAt (GameState.setRevealed s p) p = true := by
  unfold isRevealedAt GameState.setRevealed
  simp [getCell_setCell, hc]

theorem getCell_setRevealed_other {s : GameState} {p r : Position} (hrp : ¬ r = p) :
    getCell (GameState.setRevealed s p).cells r = getCell s.cells r := by
  unfold GameState.setRevealed
  simp [getCell_setCell, hrp]

theorem revealFuel_target {fuel : Nat} {s s' : GameState} {p : Position} {c : Cell}
    (h : revealFuel fuel s p = some s') (hc : getCell s.cells p = some c)
    (hd : c.marking = Marking.None ∨ c.is_revealed = true) :
    isRevealedAt s' p = true := by
  cases fuel with
  | zero => simp [revealFuel] at h
  | succ fuel =>
    by_cases hcond : c.is_revealed = false ∧ c.marking = Marking.None
    · by_cases hz : c.cell_type = CellType.NonMine 0
      · rw [revealFuel_succ_flood fuel hc hcond.1 hcond.2 hz] at h
        exact (revealSeq_pres (fun t q t' => revealFuel_pres fuel t q t') _ _ _
          h).mono_revealed (isRevealedAt_setRevealed_self hc)
      · rw [revealFuel_succ_stop fuel hc hcond.1 hcond.2 hz] at h
        injection h with h; rw [← h]
        exact isRevealedAt_setRevealed_self hc
    · rw [revealFuel_succ_skip fuel hc hcond] at h
      injection h with h; rw [← h]
      unfold isRevealedAt
      rw [hc]
      show c.is_revealed = true
      cases hrev : c.is_revealed with
      | true => rfl
      | false =>
        rcases hd with hm | hr
        · exact absurd ⟨hrev, hm⟩ hcond
        · rw [hrev] at hr; exact hr

theorem revealSeq_targets {f : GameState → Position → Option GameState}
    (hP : ∀ t q t', f t q = some t' → Pres t t')
    (hT : ∀ t q t' c, f t q = some t' → getCell t.cells q = some c →
      (c.marking = Marking.None ∨ c.is_revealed = true) → isRevealedAt t' q = true) :
    ∀ (l : List Position) (s s' : GameState), revealSeq f s l = some s' →
      ∀ q ∈ l, ∀ c, getCell s.cells q = some c →
      (c.marking = Marking.None ∨ c.is_revealed = true) → isRevealedAt s' q = true := by
  intro l
  induction l with
  | nil => intro s s' h q hq; simp at hq
  | cons p ps ih =>
    intro s s' h q hq c hc hd
    cases h1 : f s p with
    | none => simp [revealSeq, h1] at h
    | some s1 =>
      simp only [revealSeq, h1] at h
      rcases List.mem_cons.mp hq with rfl | hq'
      · exact (revealSeq_pres hP ps s1 s' h).mono_revealed (hT s q s1 c h1 hc hd)
      · rcases (hP s p s1 h1).getCell_some hc with ⟨c', hc', hstep⟩
        have hd' : c'.marking = Marking.None ∨ c'.is_revealed = true := by
          rcases hd with hm | hr
          · exact Or.inl (hstep.marking_eq.trans hm)
          · exact Or.inr (cellStep_mono_revealed hstep hr)
        exact ih s1 s' h q hq' c' hc' hd'

theorem reveal_target {s : GameState} {p : Position} {c : Cell}
    (hc : getCell s.cells p = some c)
    (hd : c.marking = Marking.None ∨ c.is_revealed = true) :
    isRevealedAt (GameState.reveal s p) p = true :=
  revealFuel_target (reveal_spec s p) hc hd

theorem foldl_reveal_pres (l : List Position) (s : GameState) :
    Pres s (l.foldl GameState.reveal s) := by
  induction l generalizing s with
  | nil => exact Pres.refl s
  | cons p ps ih =>
    rw [List.foldl_cons]
    exact (reveal_pres s p).trans (ih (GameState.reveal s p))

theorem foldl_reveal_targets :
    ∀ (l : List Position) (s : GameState) (q : Position), q ∈ l →
      ∀ c, getCell s.cells q = some c →
      (c.marking = Marking.None ∨ c.is_revealed = true) →
      isRevealedAt (l.foldl GameState.reveal s) q = true := by
  intro l
  induction l with
  | nil => intro s q hq; simp at hq
  | cons p ps ih =>
    intro s q hq c hc hd
    rw [List.foldl_cons]
    rcases List.mem_cons.mp hq with rfl | hq'
    · exact (foldl_reveal_pres ps (GameState.reveal s q)).mono_revealed
        (reveal_target hc hd)
    · rcases (reveal_pres s p).getCell_some hc with ⟨c', hc', hstep⟩
      have hd' : c'.marking = Marking.None ∨ c'.is_revealed = true := by
        rcases hd with hm | hr
        · exact Or.inl (hstep.marking_eq.trans hm)
        · exact Or.inr (cellStep_mono_revealed hstep hr)
      exact ih (GameState.reveal s p) q hq' c' hc' hd'

/-! ### Closure: a cell revealed by the flood has all its unmarked
neighbours revealed, provided it is a zero-count cell -/

theorem revealSeq_closure {f : GameState → Position → Option GameState}
    (hP : ∀ t q t', f t q = some t' → Pres t t')
    (hC : ∀ t q t', f t q = some t' → ∀ r, isRevealedAt t r = false →
      isRevealedAt t' r = true → isZeroCell t r = true →
      ∀ n ∈ r.neighbours, ∀ cn, getCell t.cells n = some cn →
      cn.marking = Marking.None → isRevealedAt t' n = true) :
    ∀ (l : List Position) (s s' : GameState), revealSeq f s l = some s' →
      ∀ r, isRevealedAt s r = false → isRevealedAt s' r = true →
      isZeroCell s r = true →
      ∀ n ∈ r.neighbours, ∀ cn, getCell s.cells n = some cn →
      cn.marking = Marking.None → isRevealedAt s' n = true := by
  intro l
  induction l with
  | nil =>
    intro s s' h r hr0 hr1
    simp [revealSeq] at h
    subst h
    rw [hr0] at hr1
    simp at hr1
  | cons p ps ih =>
    intro s s' h r hr0 hr1 hz n hn cn hcn hm
    cases h1 : f s p with
    | none => simp [revealSeq, h1] at h
    | some s1 =>
      simp only [revealSeq, h1] at h
      by_cases hmid : isRevealedAt s1 r = true
      · exact (revealSeq_pres hP ps s1 s' h).mono_revealed
          (hC s p s1 h1 r hr0 hmid hz n hn cn hcn hm)
      · have hr0' : isRevealedAt s1 r = false := by
          cases hb : isRevealedAt s1 r
          · rfl
          · exact absurd hb hmid
        have hz' : isZeroCell s1 r = true := by
          rw [(hP s p s1 h1).isZeroCell_eq]; exact hz
        rcases (hP s p s1 h1).getCell_some hcn with ⟨cn', hcn', hstep⟩
        exact ih s1 s' h r hr0' hr1 hz' n hn cn' hcn'
          (hstep.marking_eq.trans hm)

theorem revealFuel_closure :
    ∀ (fuel : Nat) (s : GameState) (p : Position) (s' : GameState),
      revealFuel fuel s p = some s' →
      ∀ r, isRevealedAt s r = false → isRevealedAt s' r = true →
      isZeroCell s r = true →
      ∀ n ∈ r.neighbours, ∀ cn, getCell s.cells n = some cn →
      cn.marking = Marking.None → isRevealedAt s' n = true := by
  intro fuel
  induction fuel with
  | zero => intro s p s' h; simp [revealFuel] at h
  | succ fuel ih =>
    intro s p s' h r hr0 hr1 hz n hn cn hcn hm
    cases hc : getCell s.cells p with
    | none =>
      rw [revealFuel_succ_missing fuel hc] at h
      injection h with h
      rw [← h] at hr1
      rw [hr0] at hr1; simp at hr1
    | some c =>
      by_cases hcond : c.is_revealed = false ∧ c.marking = Marking.None
      · by_cases hz0 : c.cell_type = CellType.NonMine 0
        · rw [revealFuel_succ_flood fuel hc hcond.1 hcond.2 hz0] at h
          by_cases hrp : r = p
          · rw [hrp] at hn
            have hnp : ¬ n = p := fun he => (not_mem_neighbours_self p) (he ▸ hn)
            have hcn1 : getCell (GameState.setRevealed s p).cells n = some cn := by
              rw [getCell_setRevealed_other hnp]; exact hcn
            exact revealSeq_targets (fun t q t' ht => revealFuel_pres fuel t q t' ht)
              (fun t q t' c' ht hc' hd' => revealFuel_target ht hc' hd')
              p.neighbours _ s' h n hn cn hcn1 (Or.inl hm)
          · have hr0' : isRevealedAt (GameState.setRevealed s p) r = false := by
              unfold isRevealedAt at hr0 ⊢
              rw [getCell_setRevealed_other hrp]; exact hr0
            have hpres1 : Pres s (GameState.setRevealed s p) :=
              pres_setRevealed hc hcond.1 hcond.2
            have hz' : isZeroCell (GameState.setRevealed s p) r = true := by
              rw [hpres1.isZeroCell_eq]; exact hz
            rcases hpres1.getCell_some hcn with ⟨cn', hcn', hstep⟩
            exact revealSeq_closure (fun t q t' ht => revealFuel_pres fuel t q t' ht)
              (fun t q t' ht => ih t q t' ht)
              p.neighbours _ s' h r hr0' hr1 hz' n hn cn' hcn'
              (hstep.marking_eq.trans hm)
        · rw [revealFuel_succ_stop fuel hc hcond.1 hcond.2 hz0] at h
          injection h with h
          rw [← h] at hr1
          by_cases hrp : r = p
          · subst hrp
            unfold isZeroCell at hz
            rw [hc] at hz
            simp at hz
            exact absurd hz hz0
          · rw [show isRevealedAt (GameState.setRevealed s p) r = isRevealedAt s r
              from by unfold isRevealedAt; rw [getCell_setRevealed_other hrp]] at hr1
            rw [hr0] at hr1; simp at hr1
      · rw [revealFuel_succ_skip fuel hc hcond] at h
        injection h with h
        rw [← h] at hr1
        rw [hr0] at hr1; simp at hr1

theorem reveal_closure {s : GameState} {p : Position} :
    ∀ r, isRevealedAt s r = false → isRevealedAt (GameState.reveal s p) r = true →
      isZeroCell s r = true →
      ∀ n ∈ r.neighbours, ∀ cn, getCell s.cells n = some cn →
      cn.marking = Marking.None → isRevealedAt (GameState.reveal s p) n = true :=
  revealFuel_closure _ s p _ (reveal_spec s p)

theorem getCell_mem {l : List (Position × Cell)} {q : Position} {c : Cell}
    (h : getCell l q = some c) : (q, c) ∈ l := by
  induction l with
  | nil => simp [getCell] at h
  | cons pc rest ih =>
    by_cases hk : pc.1 = q
    · simp only [getCell, if_pos hk, Option.some.injEq] at h
      have : pc = (q, c) := by
        obtain ⟨a, b⟩ := pc
        simp only at hk h
        rw [hk, h]
      rw [← this]
      exact List.mem_cons_self pc rest
    · simp only [getCell, if_neg hk] at h
      exact List.mem_cons_of_mem pc (ih h)

/-- Reachability through the flood fill: positions connected to the start
through zero-count cells (the final step may land on any cell, which covers
the bordering non-zero cells). -/
inductive ZeroReach (s : GameState) (start : Position) : Position → Prop
  | refl : ZeroReach s start start
  | step {r r' : Position} : ZeroReach s start r → isZeroCell s r = true →
      r' ∈ r.neighbours → ZeroReach s start r'

/-- No cell of the board carries a flag or question mark. -/
def NoMarks (s : GameState) : Prop := ∀ pc ∈ s.cells, pc.2.marking = Marking.None

/-- Every cell of the board is still covered. -/
def AllUnrevealed (s : GameState) : Prop := ∀ pc ∈ s.cells, pc.2.is_revealed = false

theorem reveal_covers {s : GameState} {q : Position}
    (hnm : NoMarks s) (hur : AllUnrevealed s) :
    ∀ r, ZeroReach s q r → (getCell s.cells r).isSome = true →
      isRevealedAt (GameState.reveal s q) r = true := by
  intro r hreach
  induction hreach with
  | refl =>
    intro hsome
    rcases Option.isSome_iff_exists.mp hsome with ⟨c, hc⟩
    exact reveal_target hc (Or.inl (hnm _ (getCell_mem hc)))
  | step hreach hz hn ih =>
    rename_i r r'
    intro hsome'
    have hrsome : (getCell s.cells r).isSome = true := by
      unfold isZeroCell at hz
      cases hc : getCell s.cells r with
      | none => rw [hc] at hz; simp at hz
      | some c => rfl
    rcases Option.isSome_iff_exists.mp hrsome with ⟨c, hc⟩
    have hr0 : isRevealedAt s r = false := by
      unfold isRevealedAt
      rw [hc]
      exact hur _ (getCell_mem hc)
    rcases Option.isSome_iff_exists.mp hsome' with ⟨cn, hcn⟩
    exact reveal_closure r hr0 (ih hrsome) hz r' hn cn hcn (hnm _ (getCell_mem hcn))

/-! ### Mine placement characterized -/

def NodupKeys (cells : List (Position × Cell)) : Prop := (keysOf cells).Nodup

def incPow : Nat → Cell → Cell
  | 0, c => c
  | n + 1, c => incCell (incPow n c)

/-- The value a cell ends with after the whole placement loop has processed
the (distinct) mine positions l. -/
def placedCell (l : List Position) (pc : Position × Cell) : Cell :=
  if pc.1 ∈ l then Cell.mine
  else
    match pc.2.cell_type with
    | CellType.Mine => pc.2
    | CellType.NonMine k =>
        { pc.2 with cell_type :=
            CellType.NonMine (k + l.countP (fun x => decide (x ∈ pc.1.neighbours))) }

theorem incPow_comm (n : Nat) (c : Cell) :
    incPow n (incCell c) = incCell (incPow n c) := by
  induction n with
  | zero => rfl
  | succ n ih => rw [incPow, ih, incPow]

theorem incPow_mine_type {c : Cell} (h : c.cell_type = CellType.Mine) (n : Nat) :
    incPow n c = c := by
  induction n with
  | zero => rfl
  | succ n ih => rw [incPow, ih, incCell, h]

theorem incPow_nonmine_type {c : Cell} {k : Nat} (h : c.cell_type = CellType.NonMine k)
    (n : Nat) : incPow n c = { c with cell_type := CellType.NonMine (k + n) } := by
  induction n with
  | zero =>
    obtain ⟨a, b, t⟩ := c
    simp only at h
    subst h
    simp [incPow]
  | succ n ih =>
    rw [incPow, ih]
    simp [incCell, Nat.add_assoc]

theorem getCell_map_keyed (base : List (Position × Cell))
    (g : Position × Cell → Cell) (q : Position) :
    getCell (base.map (fun pc => (pc.1, g pc))) q =
      (getCell base q).map (fun c => g (q, c)) := by
  induction base with
  | nil => rfl
  | cons pc rest ih =>
    by_cases hk : pc.1 = q
    · have hpc : pc = (q, pc.2) := by
        obtain ⟨a, b⟩ := pc
        simp only at hk
        rw [hk]
      simp only [List.map_cons, getCell, if_pos hk]
      rw [show g pc = g (q, pc.2) from congrArg g hpc]
      rfl
    · simp only [List.map_cons, getCell, if_neg hk, ih]

theorem keysOf_map_keyed (base : List (Position × Cell))
    (g : Position × Cell → Cell) :
    keysOf (base.map (fun pc => (pc.1, g pc))) = keysOf base := by
  unfold keysOf
  rw [List.map_map]
  rfl

theorem getCell_isSome_iff {l : List (Position × Cell)} {q : Position} :
    (getCell l q).isSome = true ↔ q ∈ keysOf l := by
  induction l with
  | nil => simp [getCell, keysOf]
  | cons pc rest ih =>
    have hkeys : keysOf (pc :: rest) = pc.1 :: keysOf rest := rfl
    by_cases hk : pc.1 = q
    · simp only [getCell, if_pos hk, Option.isSome_some, true_iff, hkeys,
        List.mem_cons]
      exact Or.inl hk.symm
    · have h1 : ¬ q = pc.1 := fun h => hk h.symm
      simp only [getCell, if_neg hk, hkeys, List.mem_cons]
      rw [ih]
      constructor
      · exact fun h => Or.inr h
      · intro h
        rcases h with h | h
        · exact absurd h h1
        · exact h

theorem setCell_map_keyed {base : List (Position × Cell)}
    (hnd : NodupKeys base) (g : Position × Cell → Cell) (p : Position)
    (f : Cell → Cell) :
    setCell (base.map (fun pc => (pc.1, g pc))) p f =
      base.map (fun pc => (pc.1, if pc.1 = p then f (g pc) else g pc)) := by
  induction base with
  | nil => rfl
  | cons pc rest ih =>
    have hnd' : NodupKeys rest := (List.nodup_cons.mp hnd).2
    have hout : pc.1 ∉ keysOf rest := (List.nodup_cons.mp hnd).1
    by_cases hk : pc.1 = p
    · have hq' : ∀ qc ∈ rest, ¬ qc.1 = p := fun qc hqc he =>
        hout (by rw [hk, ← he]; exact List.mem_map_of_mem Prod.fst hqc)
      have htail : (rest.map (fun pc => (pc.1, if pc.1 = p then f (g pc) else g pc))) =
          rest.map (fun pc => (pc.1, g pc)) := by
        apply List.map_congr_left
        intro qc hqc
        rw [if_neg (hq' qc hqc)]
      simp only [List.map_cons, setCell, if_pos hk, htail]
    · simp only [List.map_cons, setCell, if_neg hk, ih hnd']

theorem foldl_inc_map_keyed {base : List (Position × Cell)} (hnd : NodupKeys base) :
    ∀ (rs : List Position) (g : Position × Cell → Cell),
      rs.foldl (fun cs r => setCell cs r incCell)
          (base.map (fun pc => (pc.1, g pc))) =
        base.map (fun pc => (pc.1, incPow (rs.count pc.1) (g pc))) := by
  intro rs
  induction rs with
  | nil =>
    intro g
    simp only [List.foldl_nil, List.count_nil, incPow]
  | cons r rs ih =>
    intro g
    rw [List.foldl_cons, setCell_map_keyed hnd,
      ih (fun pc => if pc.1 = r then incCell (g pc) else g pc)]
    apply List.map_congr_left
    intro pc hpc
    by_cases hk : pc.1 = r
    · rw [if_pos hk]
      have hcnt : (r :: rs).count pc.1 = rs.count pc.1 + 1 := by
        rw [List.count_cons]
        simp [hk]
      rw [hcnt, incPow_comm, incPow]
    · rw [if_neg hk]
      have hcnt : (r :: rs).count pc.1 = rs.count pc.1 := by
        rw [List.count_cons]
        simp only [beq_iff_eq]
        rw [if_neg (fun h : r = pc.1 => hk h.symm)]
        omega
      rw [hcnt]

theorem count_eq_of_nodup {l : List Position} (h : l.Nodup) (a : Position) :
    l.count a = if a ∈ l then 1 else 0 := by
  by_cases hm : a ∈ l
  · rw [if_pos hm]
    exact List.count_eq_one_of_mem h hm
  · rw [if_neg hm]
    exact List.count_eq_zero_of_not_mem hm

theorem placeOne_map_keyed {base : List (Position × Cell)} (hnd : NodupKeys base)
    (g : Position × Cell → Cell) {p : Position} (hp : p ∈ keysOf base) :
    placeOneCells (base.map (fun pc => (pc.1, g pc))) p =
      base.map (fun pc => (pc.1,
        incPow (p.neighbours.count pc.1)
          (if pc.1 = p then Cell.mine else g pc))) := by
  unfold placeOneCells
  have hins : insertCell (base.map (fun pc => (pc.1, g pc))) p Cell.mine =
      base.map (fun pc => (pc.1, if pc.1 = p then Cell.mine else g pc)) := by
    unfold insertCell
    have hsome : (getCell (base.map (fun pc => (pc.1, g pc))) p).isSome = true := by
      rw [getCell_isSome_iff, keysOf_map_keyed]
      exact hp
    rw [if_pos hsome, setCell_map_keyed hnd]
  rw [hins, foldl_inc_map_keyed hnd]


theorem incPow_mk (a : Bool) (b : Marking) (k n : Nat) :
    incPow n ⟨a, b, CellType.NonMine k⟩ = ⟨a, b, CellType.NonMine (k + n)⟩ :=
  incPow_nonmine_type rfl n

theorem incPow_mk_mine (a : Bool) (b : Marking) (n : Nat) :
    incPow n ⟨a, b, CellType.Mine⟩ = ⟨a, b, CellType.Mine⟩ :=
  incPow_mine_type rfl n

theorem placedCell_mem {M : List Position} {pc : Position × Cell} (h : pc.1 ∈ M) :
    placedCell M pc = Cell.mine := by
  unfold placedCell
  rw [if_pos h]

theorem placeMines_map_keyed {base : List (Position × Cell)} (hnd : NodupKeys base) :
    ∀ (l M : List Position), l.Nodup → (∀ x ∈ l, x ∈ keysOf base) →
      (∀ x ∈ l, x ∉ M) →
      placeMines (base.map (fun pc => (pc.1, placedCell M pc))) l =
        base.map (fun pc => (pc.1, placedCell (M ++ l) pc)) := by
  intro l
  induction l with
  | nil => intro M _ _ _; simp only [placeMines, List.append_nil]
  | cons p l' ih =>
    intro M hnodup hsub hdis
    have hp : p ∈ keysOf base := hsub p (List.mem_cons_self p l')
    rw [placeMines, placeOne_map_keyed hnd (fun pc => placedCell M pc) hp]
    have hstep : (base.map (fun pc => (pc.1,
        incPow (p.neighbours.count pc.1)
          (if pc.1 = p then Cell.mine else placedCell M pc)))) =
        base.map (fun pc => (pc.1, placedCell (M ++ [p]) pc)) := by
      apply List.map_congr_left
      intro pc hpc
      obtain ⟨pos, cell⟩ := pc
      obtain ⟨a, b, t⟩ := cell
      simp only [Prod.mk.injEq, true_and]
      by_cases hk : pos = p
      · rw [if_pos hk, Cell.mine, incPow_mk_mine]
        rw [placedCell_mem (by simp [hk] :
          ((pos, (⟨a, b, t⟩ : Cell)) : Position × Cell).1 ∈ M ++ [p])]
        rfl
      · rw [if_neg hk]
        have hnotmem : ¬ pos ∈ M ++ [p] → ¬ pos ∈ M := by
          intro hno hM
          exact hno (List.mem_append.mpr (Or.inl hM))
        have hcnt : p.neighbours.count pos = if pos ∈ p.neighbours then 1 else 0 :=
          count_eq_of_nodup (neighbours_nodup p) pos
        by_cases hM : pos ∈ M
        · rw [placedCell_mem (by exact hM), placedCell_mem
            (by exact List.mem_append.mpr (Or.inl hM))]
          rw [Cell.mine, incPow_mk_mine]
        · have hM' : ¬ pos ∈ M ++ [p] := by
            simp only [List.mem_append, List.mem_singleton]
            rintro (h | h)
            · exact hM h
            · exact hk h
          unfold placedCell
          rw [if_neg hM, if_neg hM']
          simp only
          cases t with
          | Mine => exact incPow_mk_mine a b _
          | NonMine k =>
            rw [incPow_mk]
            simp only [Cell.mk.injEq, CellType.NonMine.injEq, true_and]
            rw [hcnt, List.countP_append]
            have hsingle : ([p].countP (fun x => decide (x ∈ Position.neighbours pos))) =
                if pos ∈ p.neighbours then 1 else 0 := by
              simp only [List.countP_cons, List.countP_nil]
              by_cases hmem : p ∈ pos.neighbours
              · rw [if_pos (mem_neighbours_symm.mpr hmem)]
                simp [hmem]
              · rw [if_neg (fun h => hmem (mem_neighbours_symm.mp h))]
                simp [hmem]
            rw [hsingle]
            omega
    rw [hstep]
    rw [ih (M ++ [p]) (List.nodup_cons.mp hnodup).2
      (fun x hx => hsub x (List.mem_cons_of_mem p hx))
      (fun x hx => by
        simp only [List.mem_append, List.mem_singleton]
        rintro (h | h)
        · exact hdis x (List.mem_cons_of_mem p hx) h
        · exact (List.nodup_cons.mp hnodup).1 (h ▸ hx))]
    rw [List.append_assoc, List.singleton_append]

theorem placedCell_nil (pc : Position × Cell) : placedCell [] pc = pc.2 := by
  unfold placedCell
  rw [if_neg (List.not_mem_nil pc.1)]
  obtain ⟨pos, cell⟩ := pc
  obtain ⟨a, b, t⟩ := cell
  cases t with
  | Mine => rfl
  | NonMine k => simp [List.countP_nil]

theorem map_placedCell_nil (base : List (Position × Cell)) :
    base.map (fun pc => (pc.1, placedCell [] pc)) = base := by
  calc base.map (fun pc => (pc.1, placedCell [] pc))
      = base.map id :=
        List.map_congr_left (fun pc _ => by rw [placedCell_nil]; rfl)
    _ = base := List.map_id base

theorem placeMines_spec {base : List (Position × Cell)} (hnd : NodupKeys base)
    {l : List Position} (hl : l.Nodup) (hsub : ∀ x ∈ l, x ∈ keysOf base) :
    placeMines base l = base.map (fun pc => (pc.1, placedCell l pc)) := by
  conv_lhs => rw [← map_placedCell_nil base]
  rw [placeMines_map_keyed hnd l [] hl hsub (fun x _ => List.not_mem_nil x),
    List.nil_append]

theorem placeMines_getCell {base : List (Position × Cell)} (hnd : NodupKeys base)
    {l : List Position} (hl : l.Nodup) (hsub : ∀ x ∈ l, x ∈ keysOf base)
    (q : Position) :
    getCell (placeMines base l) q =
      (getCell base q).map (fun c => placedCell l (q, c)) := by
  rw [placeMines_spec hnd hl hsub, getCell_map_keyed]

/-! ### Key-set preservation (no nodup hypothesis needed) -/

theorem keysOf_setCell (l : List (Position × Cell)) (p : Position) (f : Cell → Cell) :
    keysOf (setCell l p f) = keysOf l := by
  induction l with
  | nil => rfl
  | cons pc rest ih =>
    by_cases hk : pc.1 = p
    · simp only [setCell, if_pos hk, keysOf, List.map_cons]
    · simp only [setCell, if_neg hk, keysOf, List.map_cons] at *
      rw [ih]

theorem keysOf_insertCell_of_mem {l : List (Position × Cell)} {p : Position}
    (v : Cell) (hp : p ∈ keysOf l) : keysOf (insertCell l p v) = keysOf l := by
  unfold insertCell
  rw [if_pos (getCell_isSome_iff.mpr hp), keysOf_setCell]

theorem keysOf_foldl_setCell (rs : List Position) :
    ∀ init : List (Position × Cell),
      keysOf (rs.foldl (fun cs r => setCell cs r incCell) init) = keysOf init := by
  induction rs with
  | nil => intro init; rfl
  | cons r rs ih =>
    intro init
    rw [List.foldl_cons, ih, keysOf_setCell]

theorem keysOf_placeOne {l : List (Position × Cell)} {p : Position}
    (hp : p ∈ keysOf l) : keysOf (placeOneCells l p) = keysOf l := by
  unfold placeOneCells
  rw [keysOf_foldl_setCell, keysOf_insertCell_of_mem _ hp]

theorem keysOf_placeMines :
    ∀ (l : List Position) (base : List (Position × Cell)),
      (∀ x ∈ l, x ∈ keysOf base) → keysOf (placeMines base l) = keysOf base := by
  intro l
  induction l with
  | nil => intro base _; rfl
  | cons p rest ih =>
    intro base hsub
    have hp : p ∈ keysOf base := hsub p (List.mem_cons_self p rest)
    rw [placeMines, ih (placeOneCells base p)
      (fun x hx => by
        rw [keysOf_placeOne hp]
        exact hsub x (List.mem_cons_of_mem p hx)),
      keysOf_placeOne hp]

/-! ### The freshly constructed grid -/

theorem new_cells_values (w h m : Nat) :
    ∀ pc ∈ (GameState.new w h m).cells, pc.2 = Cell.default := by
  intro pc hpc
  unfold GameState.new at hpc
  rw [List.mem_flatMap] at hpc
  obtain ⟨c, hc, hm⟩ := hpc
  rw [List.mem_map] at hm
  obtain ⟨r, hr, h⟩ := hm
  rw [← h]

theorem mem_keys_new {w h m : Nat} {q : Position} :
    q ∈ keysOf (GameState.new w h m).cells ↔
      0 ≤ q.row ∧ q.row ≤ (h : Int) ∧ 0 ≤ q.column ∧ q.column ≤ (w : Int) := by
  unfold GameState.new keysOf
  constructor
  · intro hq
    rw [List.mem_map] at hq
    obtain ⟨pc, hpc, hq⟩ := hq
    rw [List.mem_flatMap] at hpc
    obtain ⟨c, hc, hm⟩ := hpc
    rw [List.mem_range] at hc
    rw [List.mem_map] at hm
    obtain ⟨r, hr, h⟩ := hm
    rw [List.mem_range] at hr
    rw [← hq, ← h]
    unfold Position.new
    simp only
    omega
  · intro hb
    rw [List.mem_map]
    refine ⟨(⟨q.row, q.column⟩, Cell.default), ?_, rfl⟩
    rw [List.mem_flatMap]
    refine ⟨q.column.toNat, by rw [List.mem_range]; omega, ?_⟩
    rw [List.mem_map]
    refine ⟨q.row.toNat, by rw [List.mem_range]; omega, ?_⟩
    unfold Position.new
    congr 1
    simp only [Position.mk.injEq]
    omega

theorem nodupKeys_new (w h m : Nat) : NodupKeys (GameState.new w h m).cells := by
  unfold NodupKeys GameState.new keysOf
  simp only
  rw [List.map_flatMap]
  rw [List.nodup_flatMap]
  constructor
  · intro c _
    rw [List.map_map]
    refine List.Nodup.map ?_ (List.nodup_range (h + 1))
    intro a b hab
    simp only [Function.comp, Position.new, Position.mk.injEq] at hab
    omega
  · have hp : (List.range (w + 1)).Pairwise (fun a b => a < b) :=
      List.pairwise_lt_range (w + 1)
    refine hp.imp ?_
    intro a b hab
    simp only [Function.onFun]
    intro x hxa hxb
    rw [List.map_map, List.mem_map] at hxa hxb
    obtain ⟨r1, _, h1⟩ := hxa
    obtain ⟨r2, _, h2⟩ := hxb
    rw [← h2] at h1
    simp only [Function.comp, Position.new, Position.mk.injEq] at h1
    omega

/-- The grid built by new: a cell exactly at the in-range positions, and it is
the default cell. -/
theorem getCell_new (w h m : Nat) (q : Position) :
    getCell (GameState.new w h m).cells q =
      if 0 ≤ q.row ∧ q.row ≤ (h : Int) ∧ 0 ≤ q.column ∧ q.column ≤ (w : Int)
      then some Cell.default else none := by
  by_cases hin : 0 ≤ q.row ∧ q.row ≤ (h : Int) ∧ 0 ≤ q.column ∧ q.column ≤ (w : Int)
  · rw [if_pos hin]
    have hmem : q ∈ keysOf (GameState.new w h m).cells := mem_keys_new.mpr hin
    rcases Option.isSome_iff_exists.mp (getCell_isSome_iff.mpr hmem) with ⟨c, hc⟩
    rw [hc]
    rw [show c = Cell.default from new_cells_values w h m (q, c) (getCell_mem hc)]
  · rw [if_neg hin]
    refine Option.not_isSome_iff_eq_none.mp ?_
    intro hs
    exact hin (mem_keys_new.mp (getCell_isSome_iff.mp hs))

/-! ### Counting helpers -/

theorem countP_cons_mem (a : Position) (l₁ : List Position) (ha : a ∉ l₁) :
    ∀ l₂ : List Position, l₂.countP (fun x => decide (x ∈ a :: l₁)) =
      l₂.countP (fun x => decide (x ∈ l₁)) + l₂.count a := by
  intro l₂
  induction l₂ with
  | nil => simp
  | cons b l₂ ih =>
    rw [List.countP_cons, List.countP_cons, List.count_cons, ih]
    by_cases hba : b = a
    · subst hba
      have h2 : decide (b ∈ l₁) = false := decide_eq_false ha
      have h3 : decide (b ∈ b :: l₁) = true :=
        decide_eq_true (List.mem_cons_self b l₁)
      have h6 : (b == b) = true := beq_iff_eq.mpr rfl
      rw [h2, h3, h6]
      simp only [eq_self_iff_true, if_true, Bool.false_eq_true, if_false]
      omega
    · have h4 : (b == a) = false := beq_eq_false_iff_ne.mpr hba
      have h5 : decide (b ∈ a :: l₁) = decide (b ∈ l₁) := by
        simp [List.mem_cons, hba]
      rw [h5, h4]
      simp only [Bool.false_eq_true, if_false]
      generalize (if decide (b ∈ l₁) = true then (1:Nat) else 0) = t
      omega

theorem countP_mem_comm {l₁ l₂ : List Position} (h₁ : l₁.Nodup) (h₂ : l₂.Nodup) :
    l₁.countP (fun x => decide (x ∈ l₂)) = l₂.countP (fun x => decide (x ∈ l₁)) := by
  induction l₁ with
  | nil =>
    rw [List.countP_nil]
    rw [List.countP_eq_zero.mpr]
    intro a _
    simp
  | cons a l₁ ih =>
    have ha : a ∉ l₁ := (List.nodup_cons.mp h₁).1
    rw [List.countP_cons, countP_cons_mem a l₁ ha l₂,
      ih (List.nodup_cons.mp h₁).2, count_eq_of_nodup h₂ a]
    by_cases hm : a ∈ l₂ <;> simp [hm]

/-! ### State predicates and placement corollaries -/

def NoMines (s : GameState) : Prop :=
  ∀ pc ∈ s.cells, ¬ pc.2.cell_type = CellType.Mine

theorem mem_eligible {s : GameState} {start x : Position} :
    x ∈ eligible s start ↔
      x ∈ keysOf s.cells ∧ x ≠ start ∧ x ∉ start.neighbours := by
  unfold eligible
  rw [List.mem_filter]
  simp

theorem eligible_nodup {s : GameState} (start : Position) (hnd : NodupKeys s.cells) :
    (eligible s start).Nodup := hnd.filter _

theorem initialize_getCell {s : GameState} (hnd : NodupKeys s.cells)
    {l : List Position} (hl : l.Nodup) (hsub : ∀ x ∈ l, x ∈ keysOf s.cells)
    {q : Position} {c : Cell} (hq : getCell s.cells q = some c) :
    getCell (GameState.initialize_state s l).cells q = some (placedCell l (q, c)) := by
  unfold GameState.initialize_state
  simp only
  rw [placeMines_spec hnd hl hsub, getCell_map_keyed, hq]
  rfl

theorem initialize_getCell_none {s : GameState} (hnd : NodupKeys s.cells)
    {l : List Position} (hl : l.Nodup) (hsub : ∀ x ∈ l, x ∈ keysOf s.cells)
    {q : Position} (hq : getCell s.cells q = none) :
    getCell (GameState.initialize_state s l).cells q = none := by
  unfold GameState.initialize_state
  simp only
  rw [placeMines_spec hnd hl hsub, getCell_map_keyed, hq]
  rfl

theorem placedCell_mine_iff {l : List Position} {pc : Position × Cell} :
    (placedCell l pc).cell_type = CellType.Mine ↔
      pc.1 ∈ l ∨ pc.2.cell_type = CellType.Mine := by
  unfold placedCell
  by_cases hm : pc.1 ∈ l
  · simp [hm, Cell.mine]
  · rw [if_neg hm]
    cases ht : pc.2.cell_type with
    | Mine => simp [hm, ht]
    | NonMine k => simp [hm, ht]

theorem placedCell_is_revealed (l : List Position) (pc : Position × Cell) :
    (placedCell l pc).is_revealed =
      if pc.1 ∈ l then false else pc.2.is_revealed := by
  unfold placedCell
  by_cases hm : pc.1 ∈ l
  · simp [hm, Cell.mine]
  · rw [if_neg hm, if_neg hm]
    cases ht : pc.2.cell_type <;> simp

theorem placedCell_marking (l : List Position) (pc : Position × Cell) :
    (placedCell l pc).marking =
      if pc.1 ∈ l then Marking.None else pc.2.marking := by
  unfold placedCell
  by_cases hm : pc.1 ∈ l
  · simp [hm, Cell.mine]
  · rw [if_neg hm, if_neg hm]
    cases ht : pc.2.cell_type <;> simp

theorem placedCell_count {l : List Position} {pc : Position × Cell} {k : Nat}
    (hm : pc.1 ∉ l) (ht : pc.2.cell_type = CellType.NonMine k) :
    (placedCell l pc).cell_type = CellType.NonMine
      (k + l.countP (fun x => decide (x ∈ pc.1.neighbours))) := by
  unfold placedCell
  rw [if_neg hm, ht]

theorem mineCount_initialize {s : GameState} (hnd : NodupKeys s.cells)
    {l : List Position} (hl : l.Nodup) (hsub : ∀ x ∈ l, x ∈ keysOf s.cells)
    (hnomine : NoMines s) :
    mineCount (GameState.initialize_state s l) = l.length := by
  unfold mineCount GameState.initialize_state
  simp only
  rw [placeMines_spec hnd hl hsub]
  rw [← List.countP_eq_length_filter, List.countP_map]
  have h1 : ∀ pc ∈ s.cells,
      (decide ((placedCell l pc).cell_type = CellType.Mine) : Bool) =
        decide (pc.1 ∈ l) := by
    intro pc hpc
    by_cases hm : pc.1 ∈ l
    · simp [placedCell_mine_iff, hm]
    · have := hnomine pc hpc
      simp [placedCell_mine_iff, hm, this]
  rw [List.countP_congr (fun pc hpc => by
    show decide ((placedCell l pc).cell_type = CellType.Mine) = true ↔
      decide (pc.1 ∈ l) = true
    rw [h1 pc hpc])]
  have h2 : s.cells.countP (fun pc => decide (pc.1 ∈ l)) =
      (keysOf s.cells).countP (fun x => decide (x ∈ l)) := by
    unfold keysOf
    rw [List.countP_map]
    rfl
  rw [h2, countP_mem_comm hnd hl]
  rw [List.countP_eq_length.mpr]
  intro a ha
  exact decide_eq_true (hsub a ha)

theorem reveal_missing {s : GameState} {q : Position}
    (h : getCell s.cells q = none) : GameState.reveal s q = s := by
  unfold GameState.reveal
  rw [revealFuel_succ_missing _ h]
  rfl

/-! ### toggle_mark helpers -/

theorem setCell_setCell (l : List (Position × Cell)) (p : Position)
    (f g : Cell → Cell) :
    setCell (setCell l p f) p g = setCell l p (fun c => g (f c)) := by
  induction l with
  | nil => rfl
  | cons pc rest ih =>
    by_cases hk : pc.1 = p
    · simp only [setCell, if_pos hk]
    · simp only [setCell, if_neg hk, ih]

theorem setCell_congr (l : List (Position × Cell)) (p : Position)
    {f g : Cell → Cell} (h : ∀ c, f c = g c) : setCell l p f = setCell l p g := by
  induction l with
  | nil => rfl
  | cons pc rest ih =>
    by_cases hk : pc.1 = p
    · simp only [setCell, if_pos hk, h pc.2]
    · simp only [setCell, if_neg hk, ih]

theorem setCell_id (l : List (Position × Cell)) (p : Position) :
    setCell l p (fun c => c) = l := by
  induction l with
  | nil => rfl
  | cons pc rest ih =>
    by_cases hk : pc.1 = p
    · simp only [setCell, if_pos hk]
    · simp only [setCell, if_neg hk, ih]

theorem setCell_not_mem {l : List (Position × Cell)} {p : Position}
    (h : getCell l p = none) (f : Cell → Cell) : setCell l p f = l := by
  induction l with
  | nil => rfl
  | cons pc rest ih =>
    by_cases hk : pc.1 = p
    · simp only [getCell, if_pos hk] at h
      exact absurd h (Option.some_ne_none pc.2)
    · simp only [getCell, if_neg hk] at h
      simp only [setCell, if_neg hk, ih h]

theorem marking_next_next_next (mk : Marking) : mk.next.next.next = mk := by
  cases mk <;> rfl

/-! ### reveal_surrounding unfoldings -/

/-- The number of flagged-and-unrevealed neighbours: the size of the marked
side of the partition. -/
def flaggedNeighbourCount (s : GameState) (p : Position) : Nat :=
  (p.neighbours.filter (fun q => isFlaggedUnrevealed s q)).length

theorem rs_of_no_cell {s : GameState} {p : Position}
    (h : getCell s.cells p = none) : GameState.reveal_surrounding s p = s := by
  simp only [GameState.reveal_surrounding, h]

theorem rs_of_unrevealed {s : GameState} {p : Position} {c : Cell}
    (h : getCell s.cells p = some c) (hr : c.is_revealed = false) :
    GameState.reveal_surrounding s p = s := by
  simp only [GameState.reveal_surrounding, h, hr, Bool.false_eq_true, if_false]

theorem rs_of_mine {s : GameState} {p : Position} {c : Cell}
    (h : getCell s.cells p = some c) (ht : c.cell_type = CellType.Mine) :
    GameState.reveal_surrounding s p = s := by
  simp only [GameState.reveal_surrounding, h, ht, ite_self]

theorem rs_of_count_ne {s : GameState} {p : Position} {c : Cell} {n : Nat}
    (h : getCell s.cells p = some c) (hr : c.is_revealed = true)
    (ht : c.cell_type = CellType.NonMine n)
    (hne : flaggedNeighbourCount s p ≠ n) :
    GameState.reveal_surrounding s p = s := by
  unfold flaggedNeighbourCount at hne
  simp only [GameState.reveal_surrounding, h, hr, ht, eq_self_iff_true, if_true]
  rw [if_neg hne]

theorem rs_of_count_eq {s : GameState} {p : Position} {c : Cell} {n : Nat}
    (h : getCell s.cells p = some c) (hr : c.is_revealed = true)
    (ht : c.cell_type = CellType.NonMine n)
    (heq : flaggedNeighbourCount s p = n) :
    GameState.reveal_surrounding s p =
      (p.neighbours.filter (fun q => !isFlaggedUnrevealed s q)).foldl
        GameState.reveal s := by
  unfold flaggedNeighbourCount at heq
  simp only [GameState.reveal_surrounding, h, hr, ht, eq_self_iff_true, if_true]
  rw [if_pos heq]

/-! ### Placement keeps every cell unrevealed -/

def AllZeroCells (s : GameState) : Prop :=
  ∀ pc ∈ s.cells, pc.2.cell_type = CellType.NonMine 0

theorem initialize_allUnrevealed {s : GameState} (hnd : NodupKeys s.cells)
    {l : List Position} (hl : l.Nodup) (hsub : ∀ x ∈ l, x ∈ keysOf s.cells)
    (hur : AllUnrevealed s) :
    AllUnrevealed (GameState.initialize_state s l) := by
  intro pc hpc
  unfold GameState.initialize_state at hpc
  simp only at hpc
  rw [placeMines_spec hnd hl hsub, List.mem_map] at hpc
  obtain ⟨qc, hqc, hqe⟩ := hpc
  rw [← hqe]
  simp only [placedCell_is_revealed]
  by_cases hm : qc.1 ∈ l
  · rw [if_pos hm]
  · rw [if_neg hm]
    exact hur qc hqc

theorem Pres.isSome_eq {s s' : GameState} (h : Pres s s') (q : Position) :
    (getCell s'.cells q).isSome = (getCell s.cells q).isSome := by
  cases hc : getCell s.cells q with
  | none => rw [h.getCell_none hc]
  | some c =>
    rcases h.getCell_some hc with ⟨c', hc', _⟩
    rw [hc']
    rfl

/-! ### update unfoldings -/

theorem update_reveal_seeded {s : GameState} (hs : s.has_revealed_any = true)
    (p : Position) (choice : List Position) :
    GameState.update s (Message.Reveal p) choice = GameState.reveal s p := by
  unfold GameState.update
  rw [hs]
  rfl

theorem update_reveal_unseeded {s : GameState} (hs : s.has_revealed_any = false)
    (p : Position) (choice : List Position) :
    GameState.update s (Message.Reveal p) choice =
      GameState.reveal
        { GameState.initialize_state s choice with has_revealed_any := true } p := by
  unfold GameState.update
  rw [hs]
  rfl

theorem update_toggle (s : GameState) (p : Position) (choice : List Position) :
    GameState.update s (Message.ToggleMark p) choice = GameState.toggle_mark s p := rfl

theorem update_rs (s : GameState) (p : Position) (choice : List Position) :
    GameState.update s (Message.RevealSurrounding p) choice =
      GameState.reveal_surrounding s p := rfl

theorem rs_pres (s : GameState) (q : Position) :
    Pres s (GameState.reveal_surrounding s q) := by
  cases hc : getCell s.cells q with
  | none => rw [rs_of_no_cell hc]; exact Pres.refl s
  | some c =>
    cases hr : c.is_revealed with
    | false => rw [rs_of_unrevealed hc hr]; exact Pres.refl s
    | true =>
      cases ht : c.cell_type with
      | Mine => rw [rs_of_mine hc ht]; exact Pres.refl s
      | NonMine n =>
        by_cases hn : flaggedNeighbourCount s q = n
        · rw [rs_of_count_eq hc hr ht hn]
          exact foldl_reveal_pres _ s
        · rw [rs_of_count_ne hc hr ht hn]
          exact Pres.refl s

theorem isFlaggedUnrevealed_of_marking_none {s : GameState} {q : Position} {c : Cell}
    (hq : getCell s.cells q = some c) (hm : c.marking = Marking.None) :
    isFlaggedUnrevealed s q = false := by
  simp [isFlaggedUnrevealed, hq, hm]

instance (s : GameState) : Decidable (NoMarks s) := by
  unfold NoMarks; infer_instance

instance (s : GameState) : Decidable (AllUnrevealed s) := by
  unfold AllUnrevealed; infer_instance

instance (s : GameState) : Decidable (NoMines s) := by
  unfold NoMines; infer_instance

instance (s : GameState) : Decidable (AllZeroCells s) := by
  unfold AllZeroCells; infer_instance

instance (cells : List (Position × Cell)) : Decidable (NodupKeys cells) := by
  unfold NodupKeys; infer_instance

instance (s : GameState) (start : Position) (l : List Position) :
    Decidable (ValidMineChoice s start l) := by
  unfold ValidMineChoice; infer_instance

/-! ## Claim theorems -/

/-- C7: GameState::reveal terminates for every board and position: fuel one
greater than the number of unrevealed cells is always enough, because each
recursive call reveals a previously unrevealed cell, strictly shrinking the
set of unrevealed cells; GameState.reveal is the value the recursion
reaches. -/
theorem c7_flood_fill_terminates :
    ∀ (s : GameState) (p : Position),
      revealFuel (countUnrevealed s.cells + 1) s p = some (GameState.reveal s p) :=
  reveal_spec

/-- C9: toggle_mark advances the cell's marking through the fixed cycle
None → Flag → QuestionMark → None regardless of the revealed state, three
toggles restore the board exactly, and toggling a position with no cell is a
no-op. -/
theorem c9_marking_cycle :
    (∀ mk : Marking, mk.next.next.next = mk) ∧
    (∀ (s : GameState) (p : Position) (c : Cell), getCell s.cells p = some c →
      getCell (GameState.toggle_mark s p).cells p =
        some { c with marking := c.marking.next }) ∧
    (∀ (s : GameState) (p : Position),
      GameState.toggle_mark (GameState.toggle_mark (GameState.toggle_mark s p) p) p
        = s) ∧
    (∀ (s : GameState) (p : Position), getCell s.cells p = none →
      GameState.toggle_mark s p = s) := by
  refine ⟨marking_next_next_next, ?_, ?_, ?_⟩
  · intro s p c hc
    unfold GameState.toggle_mark
    rw [getCell_setCell, if_pos rfl, hc]
    rfl
  · intro s p
    show ({ s with cells := setCell (setCell (setCell s.cells p _) p _) p _ }) = s
    rw [setCell_setCell, setCell_setCell]
    rw [setCell_congr s.cells p
      (g := fun c => c)
      (fun c => by
        show ({ c with marking := c.marking.next.next.next }) = c
        rw [marking_next_next_next])]
    rw [setCell_id]
  · intro s p hp
    show ({ s with cells := setCell s.cells p _ }) = s
    rw [setCell_not_mem hp]

/-- Witness for C9: a concrete step of the cycle on a real cell, and the
no-op on a position outside the grid. -/
theorem c9_marking_cycle_witness :
    getCell (GameState.toggle_mark (GameState.new 1 1 0) (Position.new 0 0)).cells
        (Position.new 0 0) =
      some { Cell.default with marking := Cell.default.marking.next } ∧
    GameState.toggle_mark (GameState.new 1 1 0) ⟨5, 5⟩ = GameState.new 1 1 0 :=
  ⟨c9_marking_cycle.2.1 (GameState.new 1 1 0) (Position.new 0 0) Cell.default
      (by decide),
    c9_marking_cycle.2.2.2 (GameState.new 1 1 0) ⟨5, 5⟩ (by decide)⟩

/-- C4: reveal_surrounding is a no-op unless the cell exists, is revealed and
is a NonMine with count n; when it applies it reveals the unmarked neighbours
iff the number of flagged-and-unrevealed neighbours equals n, and with any
other flag count (n-1, n+1, ...) the board is unchanged. -/
theorem c4_chord_gate :
    (∀ (s : GameState) (p : Position),
      (∀ c, getCell s.cells p = some c →
        c.is_revealed = false ∨ c.cell_type = CellType.Mine) →
      GameState.reveal_surrounding s p = s) ∧
    (∀ (s : GameState) (p : Position) (c : Cell) (n : Nat),
      getCell s.cells p = some c → c.is_revealed = true →
      c.cell_type = CellType.NonMine n → flaggedNeighbourCount s p ≠ n →
      GameState.reveal_surrounding s p = s) ∧
    (∀ (s : GameState) (p : Position) (c : Cell) (n : Nat),
      getCell s.cells p = some c → c.is_revealed = true →
      c.cell_type = CellType.NonMine n → flaggedNeighbourCount s p = n →
      ∀ q ∈ p.neighbours, ∀ cq, getCell s.cells q = some cq →
        cq.marking = Marking.None →
        isRevealedAt (GameState.reveal_surrounding s p) q = true) := by
  refine ⟨?_, ?_, ?_⟩
  · intro s p h
    cases hc : getCell s.cells p with
    | none => exact rs_of_no_cell hc
    | some c =>
      rcases h c hc with hr | ht
      · exact rs_of_unrevealed hc hr
      · exact rs_of_mine hc ht
  · intro s p c n hc hr ht hne
    exact rs_of_count_ne hc hr ht hne
  · intro s p c n hc hr ht heq q hq cq hcq hm
    rw [rs_of_count_eq hc hr ht heq]
    refine foldl_reveal_targets _ s q ?_ cq hcq (Or.inl hm)
    rw [List.mem_filter]
    refine ⟨hq, ?_⟩
    rw [isFlaggedUnrevealed_of_marking_none hcq hm]
    rfl

/-- Witness board for C4 and C6: a 1x3 strip with one mine at column 2,
seeded by a first reveal at column 0. -/
def stripBoard : GameState :=
  GameState.update (GameState.new 2 0 1) (Message.Reveal (Position.new 0 0))
    [Position.new 0 2]

/-- Witness for C4: on the seeded strip with the mine flagged, chording the
revealed 1-cell at column 1 reveals (keeps revealed) the unmarked neighbour
at column 0. -/
theorem c4_chord_gate_witness :
    isRevealedAt
      (GameState.reveal_surrounding
        (GameState.update stripBoard (Message.ToggleMark (Position.new 0 2)) [])
        (Position.new 0 1))
      (Position.new 0 0) = true :=
  c4_chord_gate.2.2
    (GameState.update stripBoard (Message.ToggleMark (Position.new 0 2)) [])
    (Position.new 0 1) ⟨true, Marking.None, CellType.NonMine 1⟩ 1
    (by decide) (by decide) (by decide) (by decide)
    (Position.new 0 0) (by decide) ⟨true, Marking.None, CellType.NonMine 0⟩
    (by decide) (by decide)

/-- C6: a cell bearing a Flag or QuestionMark is never modified by reveal
(direct, flood or chord): the whole entry is preserved, so the cell stays
unrevealed; and the concrete scenario: ToggleMark(p) then a first Reveal(p)
leaves p unrevealed. -/
theorem c6_marked_cell_protected :
    (∀ (s : GameState) (p : Position) (c : Cell) (q : Position),
      getCell s.cells p = some c → ¬ c.marking = Marking.None →
      getCell (GameState.reveal s q).cells p = some c) ∧
    (∀ (s : GameState) (p : Position) (c : Cell) (q : Position),
      getCell s.cells p = some c → ¬ c.marking = Marking.None →
      getCell (GameState.reveal_surrounding s q).cells p = some c) ∧
    (∀ (w h m : Nat) (p : Position) (choice : List Position),
      ValidMineChoice (GameState.toggle_mark (GameState.new w h m) p) p choice →
      isRevealedAt
        (GameState.update (GameState.toggle_mark (GameState.new w h m) p)
          (Message.Reveal p) choice) p = false) := by
  refine ⟨?_, ?_, ?_⟩
  · intro s p c q hc hm
    exact (reveal_pres s q).marked_frozen hc hm
  · intro s p c q hc hm
    exact (rs_pres s q).marked_frozen hc hm
  · intro w h m p choice hv
    have hflag : (GameState.toggle_mark (GameState.new w h m) p).has_revealed_any
        = false := rfl
    rw [update_reveal_unseeded hflag]
    set s1 := GameState.toggle_mark (GameState.new w h m) p with hs1
    have hnd1 : NodupKeys s1.cells := by
      show NodupKeys (setCell (GameState.new w h m).cells p _)
      unfold NodupKeys
      rw [keysOf_setCell]
      exact nodupKeys_new w h m
    have hsub : ∀ x ∈ choice, x ∈ keysOf s1.cells := fun x hx =>
      (mem_eligible.mp (hv.2.1 x hx)).1
    have hpnot : p ∉ choice := fun hp =>
      (mem_eligible.mp (hv.2.1 p hp)).2.1 rfl
    cases hc : getCell s1.cells p with
    | none =>
      have h2 : getCell (GameState.initialize_state s1 choice).cells p = none :=
        initialize_getCell_none hnd1 hv.1 hsub hc
      have h3 : getCell ({ GameState.initialize_state s1 choice with
          has_revealed_any := true } : GameState).cells p = none := h2
      rw [reveal_missing h3]
      unfold isRevealedAt
      rw [h3]
    | some c =>
      have h2 : getCell (GameState.initialize_state s1 choice).cells p =
          some (placedCell choice (p, c)) := initialize_getCell hnd1 hv.1 hsub hc
      have h3 : getCell ({ GameState.initialize_state s1 choice with
          has_revealed_any := true } : GameState).cells p =
          some (placedCell choice (p, c)) := h2
      have hmark : (placedCell choice (p, c)).marking = c.marking := by
        rw [placedCell_marking]
        exact if_neg hpnot
      have hcm : c.marking = Marking.Flag := by
        -- the cell at p in s1 came from toggling the fresh default cell
        have hget : getCell s1.cells p =
            (getCell (GameState.new w h m).cells p).map
              (fun c => { c with marking := c.marking.next }) := by
          show getCell (setCell (GameState.new w h m).cells p _) p = _
          rw [getCell_setCell, if_pos rfl]
        rw [hget] at hc
        cases hg : getCell (GameState.new w h m).cells p with
        | none => rw [hg] at hc; simp at hc
        | some c0 =>
          rw [hg] at hc
          have hc0 : c0 = Cell.default :=
            new_cells_values w h m (p, c0) (getCell_mem hg)
          rw [Option.map_some'] at hc
          injection hc with hc
          rw [← hc, hc0]
          rfl
      have hnm : ¬ (placedCell choice (p, c)).marking = Marking.None := by
        rw [hmark, hcm]
        intro hx
        exact Marking.noConfusion hx
      have hrev : (placedCell choice (p, c)).is_revealed = false := by
        rw [placedCell_is_revealed, if_neg hpnot]
        -- c is the toggled default cell, so it is unrevealed
        have : c.is_revealed = Cell.default.is_revealed := by
          have hget : getCell s1.cells p =
              (getCell (GameState.new w h m).cells p).map
                (fun c => { c with marking := c.marking.next }) := by
            show getCell (setCell (GameState.new w h m).cells p _) p = _
            rw [getCell_setCell, if_pos rfl]
          rw [hget] at hc
          cases hg : getCell (GameState.new w h m).cells p with
          | none => rw [hg] at hc; simp at hc
          | some c0 =>
            rw [hg] at hc
            have hc0 : c0 = Cell.default :=
              new_cells_values w h m (p, c0) (getCell_mem hg)
            rw [Option.map_some'] at hc
            injection hc with hc
            rw [← hc, hc0]
        rw [this]
        rfl
      have hfrozen := (reveal_pres
        ({ GameState.initialize_state s1 choice with has_revealed_any := true })
        p).marked_frozen h3 hnm
      unfold isRevealedAt
      rw [hfrozen]
      show (placedCell choice (p, c)).is_revealed = false
      exact hrev

/-- Witness for C6: flag the centre cell of a 1x3 mine-free strip by a
ToggleMark, then the very first Reveal on it: it stays unrevealed. -/
theorem c6_marked_cell_protected_witness :
    isRevealedAt
      (GameState.update
        (GameState.toggle_mark (GameState.new 2 0 0) (Position.new 0 1))
        (Message.Reveal (Position.new 0 1)) []) (Position.new 0 1) = false :=
  c6_marked_cell_protected.2.2 2 0 0 (Position.new 0 1) [] (by decide)

/-- C1: safe zone. On a mine-free unseeded board, after the first Reveal(p)
(mine placement having just run with p as starting position and any draw the
sampler can produce), neither p nor any of its in-grid neighbours holds a
Mine cell. -/
theorem c1_safe_zone :
    ∀ (s : GameState) (p : Position) (choice : List Position),
      NodupKeys s.cells → NoMines s → s.has_revealed_any = false →
      ValidMineChoice s p choice →
      ∀ q, (q = p ∨ q ∈ p.neighbours) →
        ∀ c, getCell (GameState.update s (Message.Reveal p) choice).cells q = some c →
          ¬ c.cell_type = CellType.Mine := by
  intro s p choice hnd hnomine hflag hv q hq c hcell
  rw [update_reveal_unseeded hflag] at hcell
  have hsub : ∀ x ∈ choice, x ∈ keysOf s.cells := fun x hx =>
    (mem_eligible.mp (hv.2.1 x hx)).1
  have hqnot : q ∉ choice := by
    intro hmem
    rcases mem_eligible.mp (hv.2.1 q hmem) with ⟨_, hne, hnn⟩
    rcases hq with rfl | hq
    · exact hne rfl
    · exact hnn hq
  cases hc0 : getCell s.cells q with
  | none =>
    have h2 : getCell (GameState.initialize_state s choice).cells q = none :=
      initialize_getCell_none hnd hv.1 hsub hc0
    have h3 : getCell ({ GameState.initialize_state s choice with
        has_revealed_any := true } : GameState).cells q = none := h2
    rw [(reveal_pres _ p).getCell_none h3] at hcell
    exact Option.noConfusion hcell
  | some c0 =>
    have h2 : getCell (GameState.initialize_state s choice).cells q =
        some (placedCell choice (q, c0)) := initialize_getCell hnd hv.1 hsub hc0
    have h3 : getCell ({ GameState.initialize_state s choice with
        has_revealed_any := true } : GameState).cells q =
        some (placedCell choice (q, c0)) := h2
    rcases (reveal_pres ({ GameState.initialize_state s choice with
        has_revealed_any := true }) p).getCell_some h3 with ⟨c', hc', hstep⟩
    rw [hc'] at hcell
    injection hcell with hcell
    rw [← hcell, hstep.cell_type_eq]
    rw [placedCell_mine_iff]
    rintro (hmem | hmine)
    · exact hqnot hmem
    · exact hnomine (q, c0) (getCell_mem hc0) hmine

/-- Witness for C1: the 1x3 strip with one mine; the only possible draw for a
first reveal at column 0 is the far cell, and the clicked cell is no mine. -/
theorem c1_safe_zone_witness :
    ¬ (⟨true, Marking.None, CellType.NonMine 0⟩ : Cell).cell_type = CellType.Mine :=
  c1_safe_zone (GameState.new 2 0 1) (Position.new 0 0) [Position.new 0 2]
    (by decide) (by decide) (by decide) (by decide)
    (Position.new 0 0) (Or.inl rfl)
    ⟨true, Marking.None, CellType.NonMine 0⟩ (by decide)


/-- C2: after mine placement on a fresh (all-zero) board, every NonMine cell
stores exactly the number of its in-grid Moore neighbours that are mines, and
the outcome is the same for every processing order of the chosen mines. -/
theorem c2_adjacency_counts :
    (∀ (s : GameState) (p : Position) (choice : List Position),
      NodupKeys s.cells → AllZeroCells s → ValidMineChoice s p choice →
      ∀ q c n,
        getCell (GameState.initialize_state s choice).cells q = some c →
        c.cell_type = CellType.NonMine n →
        n = (q.neighbours.filter
          (fun r => isMineAt (GameState.initialize_state s choice) r)).length) ∧
    (∀ (s : GameState) (p : Position) (l₁ l₂ : List Position),
      NodupKeys s.cells → ValidMineChoice s p l₁ → List.Perm l₁ l₂ →
      GameState.initialize_state s l₁ = GameState.initialize_state s l₂) := by
  constructor
  · intro s p choice hnd hzero hv q c n hcell htype
    have hsub : ∀ x ∈ choice, x ∈ keysOf s.cells := fun x hx =>
      (mem_eligible.mp (hv.2.1 x hx)).1
    have hcells_eq : ∀ r, getCell (GameState.initialize_state s choice).cells r =
        (getCell s.cells r).map (fun c => placedCell choice (r, c)) := fun r =>
      placeMines_getCell hnd hv.1 hsub r
    cases hc0 : getCell s.cells q with
    | none =>
      rw [hcells_eq q, hc0, Option.map_none'] at hcell
      exact Option.noConfusion hcell
    | some c0 =>
      rw [hcells_eq q, hc0, Option.map_some'] at hcell
      injection hcell with hcell
      have hqnot : q ∉ choice := fun hmem => by
        rw [← hcell, placedCell_mem hmem] at htype
        exact CellType.noConfusion htype
      have hc0type : c0.cell_type = CellType.NonMine 0 :=
        hzero (q, c0) (getCell_mem hc0)
      have hcount : c.cell_type = CellType.NonMine
          (0 + choice.countP (fun x => decide (x ∈ q.neighbours))) := by
        rw [← hcell]
        exact placedCell_count hqnot hc0type
      have hn : n = choice.countP (fun x => decide (x ∈ q.neighbours)) := by
        rw [htype] at hcount
        injection hcount with hkk
        omega
      have hmine_iff : ∀ r, isMineAt (GameState.initialize_state s choice) r =
          decide (r ∈ choice) := by
        intro r
        unfold isMineAt
        rw [hcells_eq r]
        cases hr : getCell s.cells r with
        | none =>
          rw [Option.map_none']
          have hno : r ∉ choice := by
            intro hm
            have := getCell_isSome_iff.mpr (hsub r hm)
            rw [hr] at this
            exact Bool.noConfusion this
          rw [decide_eq_false hno]
        | some c1 =>
          rw [Option.map_some']
          show decide ((placedCell choice (r, c1)).cell_type = CellType.Mine) =
            decide (r ∈ choice)
          by_cases hm : r ∈ choice
          · rw [decide_eq_true hm]
            apply decide_eq_true
            rw [placedCell_mine_iff]
            exact Or.inl hm
          · rw [decide_eq_false hm]
            apply decide_eq_false
            rw [placedCell_mine_iff]
            rintro (hx | hx)
            · exact hm hx
            · rw [hzero (r, c1) (getCell_mem hr)] at hx
              exact CellType.noConfusion hx
      rw [hn]
      calc choice.countP (fun x => decide (x ∈ q.neighbours))
          = q.neighbours.countP (fun x => decide (x ∈ choice)) :=
            countP_mem_comm hv.1 (neighbours_nodup q)
        _ = q.neighbours.countP
              (fun r => isMineAt (GameState.initialize_state s choice) r) :=
            (List.countP_congr (fun r _ => by rw [hmine_iff r])).symm
        _ = (q.neighbours.filter
              (fun r => isMineAt (GameState.initialize_state s choice) r)).length :=
            List.countP_eq_length_filter _ _
  · intro s p l₁ l₂ hnd hv hperm
    have h1 : l₁.Nodup := hv.1
    have h2 : l₂.Nodup := hperm.nodup_iff.mp h1
    have hsub1 : ∀ x ∈ l₁, x ∈ keysOf s.cells := fun x hx =>
      (mem_eligible.mp (hv.2.1 x hx)).1
    have hsub2 : ∀ x ∈ l₂, x ∈ keysOf s.cells := fun x hx =>
      hsub1 x (hperm.mem_iff.mpr hx)
    have hcells : placeMines s.cells l₁ = placeMines s.cells l₂ := by
      rw [placeMines_spec hnd h1 hsub1, placeMines_spec hnd h2 hsub2]
      apply List.map_congr_left
      intro pc _
      unfold placedCell
      by_cases hm : pc.1 ∈ l₁
      · rw [if_pos hm, if_pos (hperm.mem_iff.mp hm)]
      · rw [if_neg hm, if_neg (fun hx => hm (hperm.mem_iff.mpr hx))]
        cases ht : pc.2.cell_type with
        | Mine => rfl
        | NonMine k => rw [hperm.countP_eq]
    show ({ s with cells := placeMines s.cells l₁ }) =
      ({ s with cells := placeMines s.cells l₂ })
    rw [hcells]

/-- Witness for C2: on the seeded 1x3 strip, the centre cell stores count 1,
the number of mines among its neighbours. -/
theorem c2_adjacency_counts_witness :
    (1 : Nat) = ((Position.new 0 1).neighbours.filter
      (fun r => isMineAt
        (GameState.initialize_state (GameState.new 2 0 1) [Position.new 0 2])
        r)).length :=
  c2_adjacency_counts.1 (GameState.new 2 0 1) (Position.new 0 0)
    [Position.new 0 2] (by decide) (by decide) (by decide)
    (Position.new 0 1) ⟨false, Marking.None, CellType.NonMine 1⟩ 1
    (by decide) (by decide)

/-- C5: placement with target count m places exactly min(m, #eligible)
mines: when m fits, exactly m cells are mines; when m exceeds the eligible
count, every eligible position becomes a mine, and the operation is total
(it is a plain function; no error case exists). -/
theorem c5_mine_count_clamp :
    ∀ (s : GameState) (p : Position) (choice : List Position),
      NodupKeys s.cells → NoMines s → ValidMineChoice s p choice →
      mineCount (GameState.initialize_state s choice) =
          min s.mines (eligible s p).length ∧
      (s.mines ≤ (eligible s p).length →
        mineCount (GameState.initialize_state s choice) = s.mines) ∧
      ((eligible s p).length < s.mines →
        ∀ q ∈ eligible s p,
          isMineAt (GameState.initialize_state s choice) q = true) := by
  intro s p choice hnd hnomine hv
  have hsub : ∀ x ∈ choice, x ∈ keysOf s.cells := fun x hx =>
    (mem_eligible.mp (hv.2.1 x hx)).1
  have hcount : mineCount (GameState.initialize_state s choice) = choice.length :=
    mineCount_initialize hnd hv.1 hsub hnomine
  refine ⟨by rw [hcount, hv.2.2], ?_, ?_⟩
  · intro hle
    rw [hcount, hv.2.2]
    exact Nat.min_eq_left hle
  · intro hlt q hqE
    have hlen : choice.length = (eligible s p).length := by
      rw [hv.2.2]
      exact Nat.min_eq_right (Nat.le_of_lt hlt)
    have hsp : List.Subperm choice (eligible s p) :=
      hv.1.subperm (fun x hx => hv.2.1 x hx)
    have hperm : List.Perm choice (eligible s p) :=
      hsp.perm_of_length_le (by rw [hlen])
    have hqc : q ∈ choice := hperm.mem_iff.mpr hqE
    have hqk : q ∈ keysOf s.cells := (mem_eligible.mp hqE).1
    rcases Option.isSome_iff_exists.mp (getCell_isSome_iff.mpr hqk) with ⟨c0, hc0⟩
    have h2 : getCell (GameState.initialize_state s choice).cells q =
        some (placedCell choice (q, c0)) := initialize_getCell hnd hv.1 hsub hc0
    unfold isMineAt
    rw [h2]
    show decide ((placedCell choice (q, c0)).cell_type = CellType.Mine) = true
    apply decide_eq_true
    rw [placedCell_mine_iff]
    exact Or.inl hqc

/-- Witness for C5: a 1x4 strip asking for 5 mines around a first click at
column 0 has only 2 eligible cells; both become mines and the count clamps
to min 5 2. -/
theorem c5_mine_count_clamp_witness :
    mineCount (GameState.initialize_state (GameState.new 3 0 5)
        [Position.new 0 2, Position.new 0 3]) =
      min 5 (eligible (GameState.new 3 0 5) (Position.new 0 0)).length ∧
    isMineAt (GameState.initialize_state (GameState.new 3 0 5)
        [Position.new 0 2, Position.new 0 3]) (Position.new 0 2) = true := by
  have h := c5_mine_count_clamp (GameState.new 3 0 5) (Position.new 0 0)
    [Position.new 0 2, Position.new 0 3] (by decide) (by decide) (by decide)
  exact ⟨h.1, h.2.2 (by decide) (Position.new 0 2) (by decide)⟩

/-- C8: new(w, h, m) has a cell exactly at the positions with row in [0, h]
and column in [0, w], each unrevealed, unmarked, NonMine with count 0; and
initialize_state (with an in-grid draw), reveal, toggle_mark and
reveal_surrounding leave the key set unchanged. -/
theorem c8_grid_domain :
    (∀ (w h m : Nat) (q : Position),
      getCell (GameState.new w h m).cells q =
        if 0 ≤ q.row ∧ q.row ≤ (h : Int) ∧ 0 ≤ q.column ∧ q.column ≤ (w : Int)
        then some ⟨false, Marking.None, CellType.NonMine 0⟩ else none) ∧
    (∀ (s : GameState) (choice : List Position) (q : Position),
      (∀ x ∈ choice, x ∈ keysOf s.cells) →
      (getCell (GameState.initialize_state s choice).cells q).isSome =
        (getCell s.cells q).isSome) ∧
    (∀ (s : GameState) (p q : Position),
      (getCell (GameState.reveal s p).cells q).isSome =
        (getCell s.cells q).isSome) ∧
    (∀ (s : GameState) (p q : Position),
      (getCell (GameState.toggle_mark s p).cells q).isSome =
        (getCell s.cells q).isSome) ∧
    (∀ (s : GameState) (p q : Position),
      (getCell (GameState.reveal_surrounding s p).cells q).isSome =
        (getCell s.cells q).isSome) := by
  refine ⟨getCell_new, ?_, ?_, ?_, ?_⟩
  · intro s choice q hsub
    have hkeys : keysOf (GameState.initialize_state s choice).cells =
        keysOf s.cells := keysOf_placeMines choice s.cells hsub
    cases hb : (getCell s.cells q).isSome
    · cases ha : (getCell (GameState.initialize_state s choice).cells q).isSome
      · rfl
      · have h1 := getCell_isSome_iff.mp ha
        rw [hkeys] at h1
        rw [getCell_isSome_iff.mpr h1] at hb
        exact hb
    · have h1 := getCell_isSome_iff.mp hb
      rw [← hkeys] at h1
      exact getCell_isSome_iff.mpr h1
  · intro s p q
    exact (reveal_pres s p).isSome_eq q
  · intro s p q
    show (getCell (setCell s.cells p _) q).isSome = (getCell s.cells q).isSome
    rw [getCell_setCell]
    by_cases hq : q = p
    · rw [if_pos hq, hq]
      cases getCell s.cells p <;> rfl
    · rw [if_neg hq]
  · intro s p q
    exact (rs_pres s p).isSome_eq q

/-- Witness for C8: placing the one eligible mine on the 1x2 strip keeps the
key at the clicked cell. -/
theorem c8_grid_domain_witness :
    (getCell (GameState.initialize_state (GameState.new 1 0 1)
        [Position.new 0 1]).cells (Position.new 0 0)).isSome =
      (getCell (GameState.new 1 0 1).cells (Position.new 0 0)).isSome :=
  c8_grid_domain.2.1 (GameState.new 1 0 1) [Position.new 0 1]
    (Position.new 0 0) (by decide)

/-- C10: a first Reveal at a position with no cell still runs mine placement
and flips has_revealed_any, while revealing nothing; with a mine-free start
the full min(m, #eligible) mines are placed, and when the whole safe zone
misses the grid the draw excludes no in-grid cell (eligible = all keys). -/
theorem c10_out_of_grid_first_reveal :
    ∀ (s : GameState) (q : Position) (choice : List Position),
      s.has_revealed_any = false → getCell s.cells q = none →
      NodupKeys s.cells → ValidMineChoice s q choice → AllUnrevealed s →
      (GameState.update s (Message.Reveal q) choice).has_revealed_any = true ∧
      (∀ r, isRevealedAt (GameState.update s (Message.Reveal q) choice) r
        = false) ∧
      (NoMines s →
        mineCount (GameState.update s (Message.Reveal q) choice) =
          min s.mines (eligible s q).length) ∧
      ((∀ n ∈ q.neighbours, getCell s.cells n = none) →
        eligible s q = keysOf s.cells) := by
  intro s q choice hflag hq hnd hv hur
  have hsub : ∀ x ∈ choice, x ∈ keysOf s.cells := fun x hx =>
    (mem_eligible.mp (hv.2.1 x hx)).1
  have hinit_q : getCell ({ GameState.initialize_state s choice with
      has_revealed_any := true } : GameState).cells q = none :=
    initialize_getCell_none hnd hv.1 hsub hq
  have hupd : GameState.update s (Message.Reveal q) choice =
      ({ GameState.initialize_state s choice with has_revealed_any := true }) := by
    rw [update_reveal_unseeded hflag]
    exact reveal_missing hinit_q
  refine ⟨by rw [hupd], ?_, ?_, ?_⟩
  · intro r
    rw [hupd]
    have hur' : AllUnrevealed (GameState.initialize_state s choice) :=
      initialize_allUnrevealed hnd hv.1 hsub hur
    unfold isRevealedAt
    cases hr : getCell ({ GameState.initialize_state s choice with
        has_revealed_any := true } : GameState).cells r with
    | none => rfl
    | some c =>
      exact hur' (r, c) (getCell_mem hr)
  · intro hnomine
    rw [hupd]
    have h1 : mineCount ({ GameState.initialize_state s choice with
        has_revealed_any := true } : GameState) =
        mineCount (GameState.initialize_state s choice) := rfl
    rw [h1, mineCount_initialize hnd hv.1 hsub hnomine, hv.2.2]
  · intro hfar
    unfold eligible
    apply List.filter_eq_self.mpr
    intro x hx
    apply decide_eq_true
    constructor
    · intro hxq
      have := getCell_isSome_iff.mpr hx
      rw [hxq, hq] at this
      exact Bool.noConfusion this
    · intro hxn
      have := getCell_isSome_iff.mpr hx
      rw [hfar x hxn] at this
      exact Bool.noConfusion this

/-- Witness for C10: first Reveal far outside a 1x2 grid with one mine to
place; the board seeds (one mine, nothing revealed) and no in-grid cell was
excluded from the draw. -/
theorem c10_out_of_grid_first_reveal_witness :
    (GameState.update (GameState.new 1 0 1) (Message.Reveal (Position.new 9 9))
        [Position.new 0 0]).has_revealed_any = true ∧
    mineCount (GameState.update (GameState.new 1 0 1)
        (Message.Reveal (Position.new 9 9)) [Position.new 0 0]) =
      min 1 (eligible (GameState.new 1 0 1) (Position.new 9 9)).length ∧
    eligible (GameState.new 1 0 1) (Position.new 9 9) =
      keysOf (GameState.new 1 0 1).cells := by
  have h := c10_out_of_grid_first_reveal (GameState.new 1 0 1) (Position.new 9 9)
    [Position.new 0 0] (by decide) (by decide) (by decide) (by decide) (by decide)
  exact ⟨h.1, h.2.2.1 (by decide), h.2.2.2 (by decide)⟩

/-- A seeded (has_revealed_any = true) 1x3 mine-free strip, produced by a
first Reveal outside the grid (with mines = 0 the empty draw is the only one
the sampler can produce). All its cells are unrevealed and unmarked. -/
def seededStrip : GameState :=
  GameState.update (GameState.new 2 0 0) (Message.Reveal (Position.new 5 5)) []

/-- The seeded strip with a flag placed on its centre cell. -/
def flaggedStrip : GameState :=
  GameState.update seededStrip (Message.ToggleMark (Position.new 0 1)) []

/-- C3 (amended): on a seeded board all of whose cells are unmarked and
unrevealed, revealing a zero-count cell reveals the entire connected
component of zero-count cells containing it plus the immediately bordering
cells (every cell reachable through zero-count cells); in particular on the
board new(2, 0, 0) the first Reveal((0,0)) leaves all three cells
revealed. -/
theorem c3_flood_fill_coverage :
    (∀ (s : GameState) (q : Position),
      NoMarks s → AllUnrevealed s → isZeroCell s q = true →
      ∀ r, ZeroReach s q r → (getCell s.cells r).isSome = true →
        isRevealedAt (GameState.reveal s q) r = true) ∧
    (isRevealedAt (GameState.update (GameState.new 2 0 0)
        (Message.Reveal (Position.new 0 0)) []) (Position.new 0 0) = true ∧
      isRevealedAt (GameState.update (GameState.new 2 0 0)
        (Message.Reveal (Position.new 0 0)) []) (Position.new 0 1) = true ∧
      isRevealedAt (GameState.update (GameState.new 2 0 0)
        (Message.Reveal (Position.new 0 0)) []) (Position.new 0 2) = true) :=
  ⟨fun s q hnm hur _ => reveal_covers hnm hur, by decide, by decide, by decide⟩

/-- Witness for C3: on the seeded mine-free strip, the cell at column 1 is
reached from the zero cell at column 0, so revealing column 0 reveals it. -/
theorem c3_flood_fill_coverage_witness :
    isRevealedAt (GameState.reveal seededStrip (Position.new 0 0))
      (Position.new 0 1) = true :=
  c3_flood_fill_coverage.1 seededStrip (Position.new 0 0)
    (by decide) (by decide) (by decide) (Position.new 0 1)
    (ZeroReach.step ZeroReach.refl (by decide) (by decide)) (by decide)

/-- Counterexample to C3 as stated: on a seeded board carrying a flag, the
flagged cell lies in the zero-count component of the clicked cell yet stays
unrevealed, so "for every seeded board" fails without the no-marks (and
all-unrevealed) proviso. -/
theorem c3_flood_fill_coverage_counterexample :
    flaggedStrip.has_revealed_any = true ∧
    isZeroCell flaggedStrip (Position.new 0 0) = true ∧
    ZeroReach flaggedStrip (Position.new 0 0) (Position.new 0 1) ∧
    (getCell flaggedStrip.cells (Position.new 0 1)).isSome = true ∧
    isRevealedAt (GameState.reveal flaggedStrip (Position.new 0 0))
      (Position.new 0 1) = false :=
  ⟨by decide, by decide,
    ZeroReach.step ZeroReach.refl (by decide) (by decide),
    by decide, by decide⟩
